import Mathlib

set_option maxRecDepth 100000

/-!
# Verification of the BTC-openlab transaction engine

Shallow embedding of the byte-level codec, script, serialization,
coin-selection and transaction-building logic of the repository
(files `transazioni/crypto_utils.py`, `transazioni/script_types.py`,
`transazioni/transaction_builder.py`, `transazioni/utxo_manager.py`,
`indirizzi/p2sh.py`), together with proofs and refutations of the
specification claims.

Bytes are modelled as natural numbers (always `< 256` on the reachable
inputs); byte strings as `List ℕ`.  Python's arbitrary-precision integers
are `ℕ`/`ℤ` as appropriate, and the `float` fee rates are modelled as `ℚ`
(exact for the concrete rates exercised here).  External effects (the
Electrum oracle, the `ecdsa` library's deterministic signer and the
randomized Schnorr signer) are abstracted as explicit parameters.
-/

namespace BTCOpenLab

/-! ## Byte-string primitives (crypto_utils.py) -/

/-- `n.to_bytes(w, "little")`: `w` little-endian bytes of `n`
(the Python call raises for `n ≥ 256^w`; all uses below are in range). -/
def natLE : ℕ → ℕ → List ℕ
  | 0, _ => []
  | w + 1, n => n % 256 :: natLE w (n / 256)

/-- `n.to_bytes(w, "big")`: big-endian fixed-width bytes. -/
def natBE (w n : ℕ) : List ℕ :=
  (natLE w n).reverse

/-- `int.from_bytes(b, "little")`. -/
def readLE (b : List ℕ) : ℕ :=
  b.foldr (fun byte acc => byte + 256 * acc) 0

/-- `crypto_utils.vi`: Bitcoin VarInt encoding. -/
def vi (n : ℕ) : List ℕ :=
  if n < 0xfd then [n]
  else if n ≤ 0xffff then 0xfd :: natLE 2 n
  else if n ≤ 0xffffffff then 0xfe :: natLE 4 n
  else 0xff :: natLE 8 n

/-- `b[i:i+k]` (slice of `k` bytes starting at `i`). -/
def slice (b : List ℕ) (i k : ℕ) : List ℕ :=
  (b.drop i).take k

/-- `crypto_utils.read_varint`: reads a VarInt at index `i`, returning
`(value, next index)`.  Out-of-range reads yield byte `0` where Python
would raise `IndexError`; the claims only exercise in-bounds reads. -/
def read_varint (b : List ℕ) (i : ℕ) : ℕ × ℕ :=
  let p := b.getD i 0
  if p < 0xfd then (p, i + 1)
  else if p = 0xfd then (readLE (slice b (i + 1) 2), i + 3)
  else if p = 0xfe then (readLE (slice b (i + 1) 4), i + 5)
  else (readLE (slice b (i + 1) 8), i + 9)

end BTCOpenLab

namespace BTCOpenLab

/-! ## Basic lemmas about the byte primitives -/


/-- `⌈p / q⌉` for an integer numerator and natural denominator, computed
with integer division only so that it evaluates by kernel reduction.
Python's `math.ceil` on exact rationals. -/
def ratCeilFrac (p : ℤ) (q : ℕ) : ℤ :=
  -(-p / (q : ℤ))


/-- Executable model of Python's `math.ceil (x * rate)` for an integer `x`
and a `float` rate modelled as an exact rational. -/
def ceilMulQ (x : ℤ) (q : ℚ) : ℤ :=
  ratCeilFrac (x * q.num) q.den


/-! ## SHA-256

A concrete, executable SHA-256 over byte lists, standing in for Python's
`hashlib.sha256(...).digest()`.  Needed because the BIP-341 sighash claims
compare hashes of different preimages. -/

/-- 32-bit mask. -/
def mask32 : ℕ := 0xffffffff

/-- 32-bit right rotation. -/
def rotr32 (n x : ℕ) : ℕ :=
  ((x >>> n) ||| (x <<< (32 - n))) &&& mask32

def bsig0 (x : ℕ) : ℕ := rotr32 2 x ^^^ rotr32 13 x ^^^ rotr32 22 x

def bsig1 (x : ℕ) : ℕ := rotr32 6 x ^^^ rotr32 11 x ^^^ rotr32 25 x

def ssig0 (x : ℕ) : ℕ := rotr32 7 x ^^^ rotr32 18 x ^^^ (x >>> 3)

def ssig1 (x : ℕ) : ℕ := rotr32 17 x ^^^ rotr32 19 x ^^^ (x >>> 10)

/-- The 64 SHA-256 round constants. -/
def sha256K : List ℕ :=
  [0x428a2f98, 0x71374491, 0xb5c0fbcf, 0xe9b5dba5, 0x3956c25b, 0x59f111f1] ++
  [0x923f82a4, 0xab1c5ed5, 0xd807aa98, 0x12835b01, 0x243185be, 0x550c7dc3] ++
  [0x72be5d74, 0x80deb1fe, 0x9bdc06a7, 0xc19bf174, 0xe49b69c1, 0xefbe4786] ++
  [0x0fc19dc6, 0x240ca1cc, 0x2de92c6f, 0x4a7484aa, 0x5cb0a9dc, 0x76f988da] ++
  [0x983e5152, 0xa831c66d, 0xb00327c8, 0xbf597fc7, 0xc6e00bf3, 0xd5a79147] ++
  [0x06ca6351, 0x14292967, 0x27b70a85, 0x2e1b2138, 0x4d2c6dfc, 0x53380d13] ++
  [0x650a7354, 0x766a0abb, 0x81c2c92e, 0x92722c85, 0xa2bfe8a1, 0xa81a664b] ++
  [0xc24b8b70, 0xc76c51a3, 0xd192e819, 0xd6990624, 0xf40e3585, 0x106aa070] ++
  [0x19a4c116, 0x1e376c08, 0x2748774c, 0x34b0bcb5, 0x391c0cb3, 0x4ed8aa4a] ++
  [0x5b9cca4f, 0x682e6ff3, 0x748f82ee, 0x78a5636f, 0x84c87814, 0x8cc70208] ++
  [0x90befffa, 0xa4506ceb, 0xbef9a3f7, 0xc67178f2]

/-- The SHA-256 initial hash value. -/
def sha256Init : List ℕ :=
  [0x6a09e667, 0xbb67ae85, 0x3c6ef372, 0xa54ff53a,
   0x510e527f, 0x9b05688c, 0x1f83d9ab, 0x5be0cd19]

/-- Merkle–Damgård padding: `0x80`, zeros to 56 mod 64, 8-byte big-endian
bit length. -/
def sha256Pad (msg : List ℕ) : List ℕ :=
  msg ++ 0x80 :: List.replicate ((119 - msg.length % 64) % 64) 0 ++
    natBE 8 (8 * msg.length)

/-- The 16 big-endian 32-bit words of a 64-byte block. -/
def wordsOfBlock (bl : List ℕ) : List ℕ :=
  (List.range 16).map fun j =>
    ((bl.getD (4 * j) 0 * 256 + bl.getD (4 * j + 1) 0) * 256 +
      bl.getD (4 * j + 2) 0) * 256 + bl.getD (4 * j + 3) 0

/-- Extends the 16-word schedule by `k` further words. -/
def extendW : ℕ → List ℕ → List ℕ
  | 0, w => w
  | k + 1, w =>
    extendW k (w ++ [(ssig1 (w.getD (w.length - 2) 0) + w.getD (w.length - 7) 0 +
      ssig0 (w.getD (w.length - 15) 0) + w.getD (w.length - 16) 0) &&& mask32])

/-- One SHA-256 compression round on the state `[a,b,c,d,e,f,g,h]`. -/
def roundStep (st : List ℕ) (kw : ℕ × ℕ) : List ℕ :=
  let a := st.getD 0 0
  let b := st.getD 1 0
  let c := st.getD 2 0
  let d := st.getD 3 0
  let e := st.getD 4 0
  let f := st.getD 5 0
  let g := st.getD 6 0
  let h := st.getD 7 0
  let t1 := (h + bsig1 e + ((e &&& f) ^^^ ((mask32 ^^^ e) &&& g)) + kw.1 + kw.2) &&& mask32
  let t2 := (bsig0 a + ((a &&& b) ^^^ (a &&& c) ^^^ (b &&& c))) &&& mask32
  [(t1 + t2) &&& mask32, a, b, c, (d + t1) &&& mask32, e, f, g]

/-- Compresses one 64-byte block into the running hash state. -/
def compressBlock (h : List ℕ) (bl : List ℕ) : List ℕ :=
  let w := extendW 48 (wordsOfBlock bl)
  let st := (sha256K.zip w).foldl roundStep h
  (h.zip st).map fun p => (p.1 + p.2) &&& mask32

/-- Splits a padded message into its `k` 64-byte blocks. -/
def sha256Chunks : ℕ → List ℕ → List (List ℕ)
  | 0, _ => []
  | k + 1, l => l.take 64 :: sha256Chunks k (l.drop 64)

/-- SHA-256 of a byte list (`hashlib.sha256(b).digest()`). -/
def sha256 (msg : List ℕ) : List ℕ :=
  let p := sha256Pad msg
  let hs := (sha256Chunks (p.length / 64) p).foldl compressBlock sha256Init
  (hs.map (natBE 4)).flatten


/-! ## Tagged hashes and DER encoding (crypto_utils.py) -/

/-- `crypto_utils.tagged_hash` (BIP-340), with the tag already UTF-8
encoded as bytes: `sha256(sha256(tag) || sha256(tag) || data)`. -/
def tagged_hash (tag data : List ℕ) : List ℕ :=
  sha256 (sha256 tag ++ sha256 tag ++ data)

/-- The UTF-8 bytes of the string `TapSighash`. -/
def tapSighashTag : List ℕ :=
  [0x54, 0x61, 0x70, 0x53, 0x69, 0x67, 0x68, 0x61, 0x73, 0x68]

/-- `SECP256k1.order`: the secp256k1 group order `n`. -/
def secpOrder : ℕ :=
  0xFFFFFFFFFFFFFFFFFFFFFFFFFFFFFFFEBAAEDCE6AF48A03BBFD25E8CD0364141

/-- Number of base-256 digits of `x` (0 for `x = 0`); the first argument is
fuel, with `byteLen x x` always sufficient. -/
def byteLen : ℕ → ℕ → ℕ
  | 0, _ => 0
  | f + 1, x => if x = 0 then 0 else byteLen f (x / 256) + 1

/-- `x.to_bytes((x.bit_length() + 7) // 8, "big")`: the minimal big-endian
byte encoding of `x` (empty for `x = 0`). -/
def natToBytesBE (x : ℕ) : List ℕ :=
  natBE (byteLen x x) x

/-- The low-s normalisation step of `der_low_s`: `s' = n - s` when
`s > n // 2`, else `s`.  (Truncated subtraction; every caller passes
`s < n`, where it agrees with Python's integer subtraction.) -/
def sLow (s : ℕ) : ℕ :=
  if s > secpOrder / 2 then secpOrder - s else s

/-- The sign-padding step of `der_low_s`: a `0x00` byte is prepended to the
minimal big-endian encoding exactly when it is nonempty and its leading
byte has the high bit (`0x80`) set. -/
def derPad (x : ℕ) : List ℕ :=
  if natToBytesBE x ≠ [] ∧ 0x80 ≤ (natToBytesBE x).headD 0 then 0 :: natToBytesBE x
  else natToBytesBE x

/-- `crypto_utils.der_low_s`: BIP-62 low-s DER encoding of an ECDSA
signature `(r, s)`: `30 len 02 lr r 02 ls s`.  `none` models the
`ValueError` Python raises from `bytes([k])` when a length byte exceeds
255 (the total-length byte bounds the two part-length bytes). -/
def der_low_s (r s : ℕ) : Option (List ℕ) :=
  let rb := derPad r
  let sb := derPad (sLow s)
  if rb.length + sb.length + 4 ≤ 255 then
    some ([0x30, rb.length + sb.length + 4, 0x02, rb.length] ++ rb ++
      [0x02, sb.length] ++ sb)
  else none


/-- The DER byte string claim C8 describes:
`0x30 len 0x02 len(r) r 0x02 len(s') s'`, with the claim's padding rule
(`derPad`) and low-s substitution (`sLow`). -/
def derLowSSpec (r s : ℕ) : List ℕ :=
  [0x30, (derPad r).length + (derPad (sLow s)).length + 4, 0x02, (derPad r).length] ++
    derPad r ++ [0x02, (derPad (sLow s)).length] ++ derPad (sLow s)

/-! ## Script classification and P2SH multisig (script_types.py, p2sh.py) -/

/-- `script_types.is_witness_script`. -/
def is_witness_script (spk : List ℕ) : Bool :=
  (spk.length = 22 ∧ spk.take 2 = [0x00, 0x14]) ∨
  (spk.length = 34 ∧ spk.take 2 = [0x00, 0x20]) ∨
  (spk.length = 34 ∧ spk.take 2 = [0x51, 0x20])

/-- The script family tags returned by `script_types.get_script_type_from_spk`. -/
inductive ScriptKind where
  | p2pkh
  | p2sh
  | p2wpkh
  | p2tr
  | p2pk
  deriving DecidableEq

/-- Errors raised by the embedded script/multisig functions
(`ValueError` variants in the source). -/
inductive ScriptErr where
  | unknownScript
  | tooShort
  | badHeader
  | badParams
  | badPubkey
  | notEnoughKeys
  | dataTooLong
  | derOverflow
  | insufficientFunds
  deriving DecidableEq

/-- `script_types.get_script_type_from_spk`: classifies a scriptPubKey,
raising (`.error`) when no family matches. -/
def get_script_type_from_spk (spk : List ℕ) : Except ScriptErr ScriptKind :=
  if spk.length = 25 ∧ spk.take 3 = [0x76, 0xa9, 0x14] ∧ spk.drop 23 = [0x88, 0xac] then
    .ok .p2pkh
  else if spk.length = 23 ∧ spk.take 2 = [0xa9, 0x14] ∧ spk.drop 22 = [0x87] then
    .ok .p2sh
  else if spk.length = 22 ∧ spk.take 2 = [0x00, 0x14] then
    .ok .p2wpkh
  else if spk.length = 34 ∧ spk.take 2 = [0x51, 0x20] then
    .ok .p2tr
  else if 35 ≤ spk.length ∧ spk.drop (spk.length - 1) = [0xac] ∧
      spk.length = spk.getD 0 0 + 2 then
    .ok .p2pk
  else .error .unknownScript

/-- The scanning loop of `script_types.parse_multisig_redeem_script`:
starting right after `OP_M`, reads `length || pubkey` chunks while more than
two bytes remain before `OP_N OP_CHECKMULTISIG`, stopping at the first
length byte that is neither 33 nor 65 or that overruns the script.  The
first argument is fuel; `s.length` is always sufficient since every
iteration advances `pos` by at least 34. -/
def parseMsLoop (s : List ℕ) : ℕ → ℕ → List (List ℕ) → List (List ℕ)
  | 0, _, acc => acc
  | fuel + 1, pos, acc =>
    if pos + 2 < s.length then
      let l := s.getD pos 0
      if l = 33 ∨ l = 65 then
        if s.length < pos + 1 + l then acc
        else parseMsLoop s fuel (pos + 1 + l) (acc ++ [slice s (pos + 1) l])
      else acc
    else acc

/-- `script_types.parse_multisig_redeem_script`. -/
def parse_multisig_redeem_script (s : List ℕ) : Except ScriptErr (List (List ℕ)) :=
  if s.length < 4 then .error .tooShort
  else if s.getD 0 0 < 0x51 ∨ 0x60 < s.getD 0 0 then .error .badHeader
  else .ok (parseMsLoop s s.length 1 [])

/-- The `push_data` helper inside `script_types.sig_p2sh_multisig`:
direct push up to 75 bytes, `OP_PUSHDATA1` up to 255, error beyond. -/
def push_data (d : List ℕ) : Except ScriptErr (List ℕ) :=
  if d.length ≤ 75 then .ok (d.length :: d)
  else if d.length ≤ 255 then .ok (0x4c :: d.length :: d)
  else .error .dataTooLong

/-- Abstraction of an `ecdsa.SigningKey`: its compressed and uncompressed
public-key encodings (derived from the curve point by the external
library) and its RFC-6979 deterministic raw signature `(r, s)` on a
digest.  The real library always returns `0 < r, s < secpOrder`. -/
structure SKey where
  pubC : List ℕ
  pubU : List ℕ
  rawSign : List ℕ → ℕ × ℕ

/-- Lookup in the `pubkey_to_privkey` dict of `sig_p2sh_multisig`: both
encodings of every key are inserted in order, so the last inserted match
wins. -/
def findKey (keys : List SKey) (pk : List ℕ) : Option SKey :=
  keys.reverse.find? fun k => decide (pk = k.pubC ∨ pk = k.pubU)

/-- `der_low_s(r, s) + b"\x01"` for a key's raw signature, as a total
function (callers establish that `der_low_s` succeeds). -/
def skSigBytes (k : SKey) (z : List ℕ) : List ℕ :=
  (der_low_s (k.rawSign z).1 (k.rawSign z).2).getD [] ++ [1]

/-- One signing attempt inside the loop of `sig_p2sh_multisig`. -/
def mkSig (k : SKey) (z : List ℕ) : Except ScriptErr (List ℕ) :=
  match der_low_s (k.rawSign z).1 (k.rawSign z).2 with
  | some d => .ok (d ++ [1])
  | none => .error .derOverflow

/-- The redeem-script pubkeys that match an available signing key (claim
C5's "pubkeys that match an available private key", with multiplicity and
in script order). -/
def matchedPks (keys : List SKey) (pks : List (List ℕ)) : List (List ℕ) :=
  pks.filter fun pk => (findKey keys pk).isSome

/-- The signature bytes produced for a matched pubkey. -/
def sigFromKey (z : List ℕ) (keys : List SKey) (pk : List ℕ) : List ℕ :=
  match findKey keys pk with
  | some k => skSigBytes k z
  | none => []

/-- The signing loop of `sig_p2sh_multisig`: walks the redeem script's
pubkeys in order, signing with each matching key, and stops once `m`
signatures exist. -/
def sigLoop (z : List ℕ) (keys : List SKey) (m : ℕ) :
    List (List ℕ) → List (List ℕ) → Except ScriptErr (List (List ℕ))
  | [], acc => .ok acc
  | pk :: rest, acc =>
    if m ≤ acc.length then .ok acc
    else
      match findKey keys pk with
      | some k =>
        match mkSig k z with
        | .ok sig => sigLoop z keys m rest (acc ++ [sig])
        | .error e => .error e
      | none => sigLoop z keys m rest acc

/-- `script_types.sig_p2sh_multisig`: builds the P2SH multisig scriptSig
`OP_0 push(sig_1) … push(sig_m) push(redeem_script)`. -/
def sig_p2sh_multisig (z : List ℕ) (keys : List SKey) (redeem : List ℕ) (m : ℕ) :
    Except ScriptErr (List ℕ) :=
  match parse_multisig_redeem_script redeem with
  | .error e => .error e
  | .ok pks =>
    match sigLoop z keys m pks [] with
    | .error e => .error e
    | .ok sigs =>
      if sigs.length < m then .error .notEnoughKeys
      else
        match sigs.mapM push_data with
        | .error e => .error e
        | .ok pushes =>
          match push_data redeem with
          | .error e => .error e
          | .ok pr => .ok (0x00 :: (pushes.flatten ++ pr))

/-- `p2sh._op_push`: minimal push for data shorter than `0x4c` bytes (the
source `assert`s this bound; all callers pass 33- or 65-byte pubkeys). -/
def op_push (d : List ℕ) : List ℕ :=
  d.length :: d

/-- `p2sh._encode_multisig_redeem`:
`OP_m <push pk_1> … <push pk_n> OP_n OP_CHECKMULTISIG`. -/
def encode_multisig_redeem (m : ℕ) (pubkeys : List (List ℕ)) (n : ℕ) :
    Except ScriptErr (List ℕ) :=
  if ¬(1 ≤ m ∧ m ≤ n ∧ n ≤ 16) then .error .badParams
  else if pubkeys.any (fun pk => decide (pk.length ≠ 33 ∧ pk.length ≠ 65)) then
    .error .badPubkey
  else .ok ([0x50 + m] ++ (pubkeys.map op_push).flatten ++ [0x50 + n, 0xAE])

/-- A 65-byte (uncompressed-format) pubkey with filler byte `b`. -/
def c5Pk (b : ℕ) : List ℕ :=
  4 :: List.replicate 64 b

/-- A signing key whose uncompressed encoding is `c5Pk 7` and whose raw
signature is the constant `(1, 1)`. -/
def c5Key : SKey :=
  ⟨List.replicate 33 2, c5Pk 7, fun _ => (1, 1)⟩

/-- A well-formed 1-of-4 multisig redeem script over four uncompressed
pubkeys: 268 bytes, beyond the 255-byte `OP_PUSHDATA1` limit of
`push_data`. -/
def c5Redeem : List ℕ :=
  [0x51] ++ ((([c5Pk 7, c5Pk 8, c5Pk 9, c5Pk 10]).map op_push).flatten ++ [0x54, 0xAE])

/-- A 1-of-1 multisig redeem script over `c5Key`'s compressed pubkey. -/
def c5Redeem2 : List ℕ :=
  [0x51] ++ (([List.replicate 33 2].map op_push).flatten ++ [0x51, 0xAE])

/-! ## Transaction model and serialization (transaction_builder.py)

`txid` is stored as the 32 bytes of the hex string (display order);
`little_endian(txid)` is its reversal.  Numeric fields are unbounded
naturals mirroring Python integers; `struct.pack` raises on out-of-range
values, so serialization theorems carry the corresponding well-formedness
bounds. -/

structure TransactionInput where
  txid : List ℕ
  vout : ℕ
  script_sig : List ℕ
  sequence : ℕ
  deriving DecidableEq

structure TransactionOutput where
  value : ℕ
  script_pubkey : List ℕ
  deriving DecidableEq

/-- `TransactionInput.serialize`. -/
def TransactionInput.serialize (inp : TransactionInput) : List ℕ :=
  inp.txid.reverse ++ natLE 4 inp.vout ++
    (vi inp.script_sig.length ++ inp.script_sig) ++ natLE 4 inp.sequence

/-- `TransactionOutput.serialize`. -/
def TransactionOutput.serialize (out : TransactionOutput) : List ℕ :=
  natLE 8 out.value ++ (vi out.script_pubkey.length ++ out.script_pubkey)

structure Transaction where
  version : ℕ
  inputs : List TransactionInput
  outputs : List TransactionOutput
  witnesses : List (List (List ℕ))
  locktime : ℕ
  deriving DecidableEq

/-- `Transaction.has_witness_data`. -/
def Transaction.has_witness_data (tx : Transaction) : Bool :=
  tx.witnesses.any fun stack => 0 < stack.length

/-- `Transaction.serialize_without_witness` (stripped form). -/
def Transaction.serialize_without_witness (tx : Transaction) : List ℕ :=
  natLE 4 tx.version ++
    (vi tx.inputs.length ++ (tx.inputs.map TransactionInput.serialize).flatten) ++
    (vi tx.outputs.length ++ (tx.outputs.map TransactionOutput.serialize).flatten) ++
    natLE 4 tx.locktime

/-- The witness section: per input, `vi(stack_len) || {vi(item_len) || item}*`. -/
def witnessSection (witnesses : List (List (List ℕ))) : List ℕ :=
  (witnesses.map fun stack =>
    vi stack.length ++ (stack.map fun item => vi item.length ++ item).flatten).flatten

/-- `Transaction.serialize_with_witness` (SegWit form; falls back to the
stripped form when no witness data is present). -/
def Transaction.serialize_with_witness (tx : Transaction) : List ℕ :=
  if ¬tx.has_witness_data then tx.serialize_without_witness
  else
    natLE 4 tx.version ++ [0x00, 0x01] ++
      (vi tx.inputs.length ++ (tx.inputs.map TransactionInput.serialize).flatten) ++
      (vi tx.outputs.length ++ (tx.outputs.map TransactionOutput.serialize).flatten) ++
      witnessSection tx.witnesses ++ natLE 4 tx.locktime

/-- `Transaction.serialize`: dispatches on `has_witness_data`. -/
def Transaction.serialize (tx : Transaction) : List ℕ :=
  if tx.has_witness_data then tx.serialize_with_witness
  else tx.serialize_without_witness

/-- `Transaction.calculate_sizes`: `(vsize, weight, stripped, total)`. -/
def Transaction.calculate_sizes (tx : Transaction) : ℕ × ℕ × ℕ × ℕ :=
  let stripped := tx.serialize_without_witness.length
  let total := tx.serialize_with_witness.length
  let weight := stripped * 4 + (total - stripped)
  ((weight + 3) / 4, weight, stripped, total)

/-! ### Raw-transaction output parsing (`TransactionBuilder.parse_transaction_outputs`)

The Python function takes a hex string; hex decoding is a bijection onto
byte strings and is modelled away, the parser working on the bytes. -/

/-- The input-skipping loop: per input, 32 bytes txid + 4 bytes vout, a
VarInt scriptSig length, the scriptSig, and 4 bytes sequence. -/
def skipInputs (b : List ℕ) : ℕ → ℕ → ℕ
  | i, 0 => i
  | i, n + 1 =>
    let r := read_varint b (i + 36)
    skipInputs b (r.2 + r.1 + 4) n

/-- The output-reading loop: per output, 8 bytes little-endian value, a
VarInt scriptPubKey length, and the scriptPubKey bytes. -/
def readOutputs (b : List ℕ) : ℕ → ℕ → List (ℕ × List ℕ)
  | _, 0 => []
  | i, n + 1 =>
    let value := readLE (slice b i 8)
    let r := read_varint b (i + 8)
    (value, slice b r.2 r.1) :: readOutputs b (r.2 + r.1) n

/-- `TransactionBuilder.parse_transaction_outputs` on the decoded bytes:
skip the version, detect the SegWit marker (`b[4] == 0 and b[5] != 0`),
skip the inputs, read the outputs. -/
def parse_transaction_outputs (b : List ℕ) : List (ℕ × List ℕ) :=
  let i0 := if 4 + 2 ≤ b.length ∧ b.getD 4 0 = 0 ∧ b.getD 5 0 ≠ 0 then 6 else 4
  let rIn := read_varint b i0
  let iOut := skipInputs b rIn.2 rIn.1
  let rOut := read_varint b iOut
  readOutputs b rOut.2 rOut.1

/-- Well-formedness of a transaction value: the numeric fields fit the
widths `struct.pack` requires and txids are 32 bytes, as holds for every
transaction the Python code can serialize. -/
def WfTx (tx : Transaction) : Prop :=
  (∀ inp ∈ tx.inputs, inp.txid.length = 32 ∧ inp.script_sig.length < 2 ^ 64) ∧
  (∀ out ∈ tx.outputs, out.value < 2 ^ 64 ∧ out.script_pubkey.length < 2 ^ 64) ∧
  tx.inputs.length < 2 ^ 64 ∧ tx.outputs.length < 2 ^ 64

/-! ## BIP-341 Taproot key-path sighash (`TransactionBuilder.sign_input_taproot`)

Only the message and digest are embedded; the Schnorr signature over the
digest involves the external curve library and fresh randomness and does
not affect the sighash claims. -/

/-- The message built by `sign_input_taproot` before tagging.  Note the
source hashes the *current* input's `amount` and `prev_spk` repeated
`len(tx.inputs)` times into `sha_amounts`/`sha_scriptpubkeys` (its
comments call this `per ora semplificato`). -/
def taprootSighashMessage (tx : Transaction) (input_idx amount : ℕ)
    (prev_spk : List ℕ) (sighash_type : ℕ) : List ℕ :=
  let anyoneCanPay := ¬(sighash_type &&& 0x80 = 0)
  let sp := if anyoneCanPay then List.replicate 32 0 else
    sha256 ((tx.inputs.map fun i => i.txid.reverse ++ natLE 4 i.vout).flatten)
  let sa := if anyoneCanPay then List.replicate 32 0 else
    sha256 ((List.replicate tx.inputs.length (natLE 8 amount)).flatten)
  let ss := if anyoneCanPay then List.replicate 32 0 else
    sha256 ((List.replicate tx.inputs.length (vi prev_spk.length ++ prev_spk)).flatten)
  let sq := if anyoneCanPay then List.replicate 32 0 else
    sha256 ((tx.inputs.map fun i => natLE 4 i.sequence).flatten)
  let so := if sighash_type &&& 0x1f = 2 ∨ sighash_type &&& 0x1f = 3 then
    List.replicate 32 0 else
    sha256 ((tx.outputs.map TransactionOutput.serialize).flatten)
  [0x00] ++ [sighash_type] ++ natLE 4 tx.version ++ natLE 4 tx.locktime ++
    sp ++ sa ++ ss ++ sq ++ so ++ [0x00] ++ natLE 4 input_idx

/-- The digest `tagged_hash("TapSighash", message)` signed by
`sign_input_taproot`. -/
def taprootSighash (tx : Transaction) (input_idx amount : ℕ)
    (prev_spk : List ℕ) (sighash_type : ℕ) : List ℕ :=
  tagged_hash tapSighashTag
    (taprootSighashMessage tx input_idx amount prev_spk sighash_type)

/-- The BIP-341 key-path sighash message as claim C1 words it: the
`sha_amounts` and `sha_scriptpubkeys` aggregates hash the amounts and
serialized scriptPubKeys of *all* inputs of the transaction (given here as
the per-input lists `amounts` and `spks`). -/
def bip341ClaimMessage (tx : Transaction) (amounts : List ℕ)
    (spks : List (List ℕ)) (input_idx sighash_type : ℕ) : List ℕ :=
  [0x00] ++ [sighash_type] ++ natLE 4 tx.version ++ natLE 4 tx.locktime ++
    sha256 ((tx.inputs.map fun i => i.txid.reverse ++ natLE 4 i.vout).flatten) ++
    sha256 ((amounts.map (natLE 8)).flatten) ++
    sha256 ((spks.map fun s => vi s.length ++ s).flatten) ++
    sha256 ((tx.inputs.map fun i => natLE 4 i.sequence).flatten) ++
    sha256 ((tx.outputs.map TransactionOutput.serialize).flatten) ++
    [0x00] ++ natLE 4 input_idx

/-! ## UTXO selection (utxo_manager.py) -/

structure UTXO where
  txid : List ℕ
  vout : ℕ
  amount : ℕ
  height : ℕ
  deriving DecidableEq

/-- Stable insertion for descending-by-amount order: an element is placed
after every existing element of strictly larger or equal... (strictly
larger amount; equal amounts keep the original relative order, matching
Python's stable `sorted(..., reverse=True)`). -/
def insertDesc (u : UTXO) : List UTXO → List UTXO
  | [] => [u]
  | v :: rest => if u.amount < v.amount then v :: insertDesc u rest else u :: v :: rest

/-- `sorted(utxos, key=lambda x: x.amount, reverse=True)` (stable). -/
def sortDesc : List UTXO → List UTXO
  | [] => []
  | x :: xs => insertDesc x (sortDesc xs)

/-- The `estimate_fee` closure inside `UTXOManager.select_utxos` with its
default `n_outputs = 2`: `ceil((10 + n·input_weight + 2·34) · fee_rate)`.
`input_weight` is rational since the configured weights include `57.25`;
the ceiling is computed on numerators and denominators so that concrete
instances evaluate by kernel reduction. -/
def estimateFee (input_weight fee_rate : ℚ) (n : ℕ) : ℤ :=
  ratCeilFrac ((78 * (input_weight.den : ℤ) + n * input_weight.num) * fee_rate.num)
    (input_weight.den * fee_rate.den)


/-- `Σ` of UTXO amounts as an integer. -/
def sumAmounts (utxos : List UTXO) : ℤ :=
  utxos.foldr (fun u a => (u.amount : ℤ) + a) 0

/-- The selection loop of `select_utxos` over the sorted list; `target`
and the error payload are integers (`ℤ`) mirroring Python ints.  The
error carries `(total_available, target + min_fee)` as reported in the
`InsufficientFunds` message. -/
def selectLoop (target : ℤ) (input_weight fee_rate : ℚ) (avail : ℤ) (minFee : ℤ) :
    List UTXO → List UTXO → ℤ → Except (ℤ × ℤ) (List UTXO)
  | [], _, _ => .error (avail, target + minFee)
  | u :: rest, sel, tot =>
    let sel' := sel ++ [u]
    let tot' := tot + u.amount
    if target + estimateFee input_weight fee_rate sel'.length ≤ tot' then .ok sel'
    else selectLoop target input_weight fee_rate avail minFee rest sel' tot'

/-- `UTXOManager.select_utxos`. -/
def select_utxos (utxos : List UTXO) (target : ℤ) (fee_rate input_weight : ℚ) :
    Except (ℤ × ℤ) (List UTXO) :=
  selectLoop target input_weight fee_rate (sumAmounts utxos)
    (estimateFee input_weight fee_rate utxos.length)
    (sortDesc utxos) [] 0

/-! ## Building and signing (`TransactionBuilder.build_transaction`)

The oracle's per-UTXO prevout data (`get_prevout_info`) is passed in as a
list of `(amount, scriptPubKey)` pairs, and the three per-family signers —
which wrap the external `ecdsa` library and the randomized Schnorr signer —
are abstract parameters producing scriptSig bytes or witness stacks.  The
dispatch, skeleton construction, fee loop and accounting are embedded from
the source. -/

/-- Abstract per-family signers used by `build_transaction`
(`sign_input_legacy`, `sign_input_witness`, `sign_input_taproot`).  Each
sees the transaction as mutated so far, the input index, the prevout
scriptPubKey and (for witness families) the prevout amount. -/
structure Signer where
  legacy : Transaction → ℕ → List ℕ → List ℕ
  witnessV0 : Transaction → ℕ → List ℕ → ℕ → List (List ℕ)
  taproot : Transaction → ℕ → List ℕ → ℕ → List (List ℕ)

/-- `tx.inputs[i].script_sig = ss`. -/
def setScriptSig (tx : Transaction) (i : ℕ) (ss : List ℕ) : Transaction :=
  let old := tx.inputs.getD i ⟨[], 0, [], 0⟩
  { tx with inputs := tx.inputs.set i { old with script_sig := ss } }

/-- `tx.witnesses[i] = stack`. -/
def setWitness (tx : Transaction) (i : ℕ) (w : List (List ℕ)) : Transaction :=
  { tx with witnesses := tx.witnesses.set i w }

/-- The per-input dispatch inside `build_transaction`'s signing loop:
witness scripts route to the Taproot or SegWit-v0 signer (a witness spk
that classifies to neither — P2WSH — raises), everything else to the
legacy signer. -/
def signOne (sg : Signer) (tx : Transaction) (i : ℕ) (amount : ℕ) (spk : List ℕ) :
    Except ScriptErr Transaction :=
  if is_witness_script spk then
    match get_script_type_from_spk spk with
    | .ok .p2tr => .ok (setWitness tx i (sg.taproot tx i spk amount))
    | .ok _ => .ok (setWitness tx i (sg.witnessV0 tx i spk amount))
    | .error e => .error e
  else .ok (setScriptSig tx i (sg.legacy tx i spk))

/-- `for i, (utxo, (amount, prev_spk, is_witness)) in enumerate(zip(...))`:
sequentially signs each input, threading the partially signed transaction. -/
def signAllGo (sg : Signer) : List (ℕ × List ℕ) → Transaction → ℕ →
    Except ScriptErr Transaction
  | [], tx, _ => .ok tx
  | info :: rest, tx, i =>
    match signOne sg tx i info.1 info.2 with
    | .ok tx' => signAllGo sg rest tx' (i + 1)
    | .error e => .error e

/-- The unsigned skeleton built in each loop iteration: all inputs with
empty scriptSig and default sequence, the requested outputs, and — iff the
change is at least the dust limit — a change output paying the wallet's
own scriptPubKey (`get_scriptpubkey_for_address(wallet.address,
wallet.hash160)`, abstracted as `changeSpk`). -/
def mkSkeleton (utxos : List UTXO) (outs : List (ℕ × List ℕ))
    (changeSpk : List ℕ) (change : ℤ) (hasChange : Bool) : Transaction :=
  { version := 1
    inputs := utxos.map fun u => ⟨u.txid, u.vout, [], 0xffffffff⟩
    outputs := (outs.map fun p => ⟨p.1, p.2⟩) ++
      (if hasChange then [⟨change.toNat, changeSpk⟩] else [])
    witnesses := utxos.map fun _ => []
    locktime := 0 }

/-- `Σ` of requested output values as an integer. -/
def sumOutValues (outs : List (ℕ × List ℕ)) : ℤ :=
  outs.foldr (fun p a => (p.1 : ℤ) + a) 0

/-- `Σ` of a built transaction's output values as an integer. -/
def outputsSum (tx : Transaction) : ℤ :=
  tx.outputs.foldr (fun o a => (o.value : ℤ) + a) 0

/-- One iteration of `build_transaction`'s fee loop: compute the change,
raise `InsufficientFunds` when it is negative, build and sign the
skeleton, and return it with the next fee estimate
`ceil(vsize · fee_rate)`, the change and the change-output flag. -/
def iterBody (sg : Signer) (utxos : List UTXO) (outs : List (ℕ × List ℕ))
    (changeSpk : List ℕ) (prevouts : List (ℕ × List ℕ)) (rate : ℚ) (fee : ℤ) :
    Except ScriptErr (Transaction × ℤ × ℤ × Bool) :=
  let change := sumAmounts utxos - sumOutValues outs - fee
  if change < 0 then .error .insufficientFunds
  else
    let hasChange := decide (546 ≤ change)
    let skel := mkSkeleton utxos outs changeSpk change hasChange
    match signAllGo sg ((utxos.zip prevouts).map Prod.snd) skel 0 with
    | .error e => .error e
    | .ok tx => .ok (tx, ceilMulQ (tx.calculate_sizes.1 : ℤ) rate, change, hasChange)

/-- The fee loop (`fee = 200`, at most 10 iterations: the first argument
counts the iterations still allowed after the current one, starting at 9).
Stops when the recomputed fee matches, or when iterations run out — in
which case the final `fee = new_fee` assignment has already happened, so
the reported fee is the`new_fee` of the last build in both cases. -/
def feeLoopGo (sg : Signer) (utxos : List UTXO) (outs : List (ℕ × List ℕ))
    (changeSpk : List ℕ) (prevouts : List (ℕ × List ℕ)) (rate : ℚ) :
    ℕ → ℤ → Except ScriptErr (Transaction × ℤ × ℤ)
  | 0, fee =>
    match iterBody sg utxos outs changeSpk prevouts rate fee with
    | .error e => .error e
    | .ok (tx, nf, ch, hc) => .ok (tx, nf, if hc then ch else 0)
  | r + 1, fee =>
    match iterBody sg utxos outs changeSpk prevouts rate fee with
    | .error e => .error e
    | .ok (tx, nf, ch, hc) =>
      if nf = fee then .ok (tx, fee, if hc then ch else 0)
      else feeLoopGo sg utxos outs changeSpk prevouts rate r nf

/-- `TransactionBuilder.build_transaction`: returns
`(signed transaction, reported fee, change paid or 0)`. -/
def build_transaction (sg : Signer) (utxos : List UTXO)
    (outs : List (ℕ × List ℕ)) (changeSpk : List ℕ)
    (prevouts : List (ℕ × List ℕ)) (rate : ℚ) :
    Except ScriptErr (Transaction × ℤ × ℤ) :=
  feeLoopGo sg utxos outs changeSpk prevouts rate 9 200

/-- A dummy signer for concrete examples: the legacy signer writes the
one-byte scriptSig `0xaa`, the witness signers write empty stacks. -/
def c3sg : Signer :=
  ⟨fun _ _ _ => [0xaa], fun _ _ _ _ => [], fun _ _ _ _ => []⟩

/-- The transaction built by one fee-loop iteration on the concrete
example: a 1000-sat input signed by `c3sg`, the requested 300-sat output
and a 600-sat change output. -/
def c3tx : Transaction :=
  { version := 1
    inputs := [⟨List.replicate 32 1, 0, [0xaa], 0xffffffff⟩]
    outputs := [⟨300, [0x51]⟩, ⟨600, [0x6a]⟩]
    witnesses := [[]]
    locktime := 0 }


/-- The transaction built by `build_transaction` on the C2 example: one
1000-sat input, a 700-sat requested output, fee rate 0 — the 300-sat
sub-dust change is dropped from the outputs. -/
def c2tx : Transaction :=
  { version := 1
    inputs := [⟨List.replicate 32 1, 0, [0xaa], 0xffffffff⟩]
    outputs := [⟨700, [0x51]⟩]
    witnesses := [[]]
    locktime := 0 }


/-- A P2TR scriptPubKey used in the taproot sighash example. -/
def c1spk : List ℕ := [0x51, 0x20] ++ List.replicate 32 9

/-- A two-input transaction for the taproot sighash example; the two
inputs spend prevouts with different amounts (5 and 7 sats). -/
def c1tx : Transaction :=
  { version := 1
    inputs := [⟨List.replicate 32 0x11, 0, [], 0xffffffff⟩,
               ⟨List.replicate 32 0x22, 0, [], 0xffffffff⟩]
    outputs := [⟨1000, [0x51, 0x20] ++ List.replicate 32 7⟩]
    witnesses := [[], []]
    locktime := 0 }


/-! # Theorems

All definitions above are embeddings of the source (or, where marked,
of the claims' wording); everything below proves or refutes the claims
about them. -/

theorem natLE_length (w n : ℕ) : (natLE w n).length = w := by
  induction w generalizing n with
  | zero => rfl
  | succ w ih => simp [natLE, ih]

theorem readLE_natLE (w n : ℕ) : readLE (natLE w n) = n % 256 ^ w := by
  induction w generalizing n with
  | zero => simp [natLE, readLE, Nat.mod_one]
  | succ w ih =>
    have h : readLE (natLE (w + 1) n) = n % 256 + 256 * readLE (natLE w (n / 256)) := rfl
    rw [h, ih, pow_succ', Nat.mod_mul]

theorem ratCeilFrac_eq (p : ℤ) (q : ℕ) : ratCeilFrac p q = ⌈(p : ℚ) / (q : ℚ)⌉ := by
  have h2 : (⌈(p : ℚ) / (q : ℚ)⌉ : ℤ) = -⌊-((p : ℚ) / (q : ℚ))⌋ := by
    rw [Int.floor_neg, neg_neg]
  rw [h2, ratCeilFrac, ← neg_div, ← Int.cast_neg, Rat.floor_intCast_div_natCast]

theorem ceilMulQ_eq (x : ℤ) (q : ℚ) : ceilMulQ x q = ⌈(x : ℚ) * q⌉ := by
  have h : (x : ℚ) * q = ((x * q.num : ℤ) : ℚ) / ((q.den : ℕ) : ℚ) := by
    conv_lhs => rw [← Rat.num_div_den q]
    push_cast
    ring
  rw [ceilMulQ, ratCeilFrac_eq, h]

example :
    sha256 [0x61, 0x62, 0x63] =
      [0xba, 0x78, 0x16, 0xbf, 0x8f, 0x01, 0xcf, 0xea, 0x41, 0x41, 0x40, 0xde,
       0x5d, 0xae, 0x22, 0x23, 0xb0, 0x03, 0x61, 0xa3, 0x96, 0x17, 0x7a, 0x9c,
       0xb4, 0x10, 0xff, 0x61, 0xf2, 0x00, 0x15, 0xad] := by decide

example :
    sha256 [] =
      [0xe3, 0xb0, 0xc4, 0x42, 0x98, 0xfc, 0x1c, 0x14, 0x9a, 0xfb, 0xf4, 0xc8,
       0x99, 0x6f, 0xb9, 0x24, 0x27, 0xae, 0x41, 0xe4, 0x64, 0x9b, 0x93, 0x4c,
       0xa4, 0x95, 0x99, 0x1b, 0x78, 0x52, 0xb8, 0x55] := by decide

example : natToBytesBE 0 = [] := by decide

example : natToBytesBE 1 = [1] := by decide

example : natToBytesBE 255 = [255] := by decide

example : natToBytesBE 256 = [1, 0] := by decide

example : natToBytesBE 0x80 = [0x80] := by decide

example : der_low_s 1 1 = some [0x30, 0x06, 0x02, 0x01, 0x01, 0x02, 0x01, 0x01] := by decide

example : der_low_s 0x80 1 = some [0x30, 0x07, 0x02, 0x02, 0x00, 0x80, 0x02, 0x01, 0x01] := by decide

theorem estimateFee_eq (input_weight fee_rate : ℚ) (n : ℕ) :
    estimateFee input_weight fee_rate n =
      ⌈(10 + n * input_weight + 2 * 34) * fee_rate⌉ := by
  have h : (10 + n * input_weight + 2 * 34) * fee_rate =
      (((78 * (input_weight.den : ℤ) + n * input_weight.num) * fee_rate.num : ℤ) : ℚ) /
        (((input_weight.den * fee_rate.den : ℕ)) : ℚ) := by
    conv_lhs => rw [← Rat.num_div_den input_weight, ← Rat.num_div_den fee_rate]
    have hwd : ((input_weight.den : ℚ)) ≠ 0 := by
      exact_mod_cast input_weight.den_nz
    have hrd : ((fee_rate.den : ℚ)) ≠ 0 := by
      exact_mod_cast fee_rate.den_nz
    push_cast
    field_simp
    ring_nf
    tauto
  rw [estimateFee, ratCeilFrac_eq, h]

/-! ## Helper lemmas: byte access in appended buffers -/

theorem getD_append_add (pre rest : List ℕ) (k d : ℕ) :
    (pre ++ rest).getD (pre.length + k) d = rest.getD k d := by
  induction pre with
  | nil => simp
  | cons a pre ih =>
    have h : (a :: pre).length + k = (pre.length + k) + 1 := by
      simp [Nat.succ_add]
    rw [List.cons_append, h, List.getD_cons_succ, ih]

theorem getD_append_len (pre rest : List ℕ) (d : ℕ) :
    (pre ++ rest).getD pre.length d = rest.getD 0 d := by
  simpa using getD_append_add pre rest 0 d

theorem slice_append_of_length (pre mid suf : List ℕ) (k : ℕ) (h : mid.length = k) :
    slice (pre ++ (mid ++ suf)) pre.length k = mid := by
  rw [slice, List.drop_left, List.take_left' h]

theorem vi_length (n : ℕ) :
    (vi n).length =
      if n < 0xfd then 1 else if n ≤ 0xffff then 3
      else if n ≤ 0xffffffff then 5 else 9 := by
  rw [vi]
  by_cases h1 : n < 0xfd
  · simp [h1]
  · by_cases h2 : n ≤ 0xffff
    · simp [h1, h2, natLE_length]
    · by_cases h3 : n ≤ 0xffffffff
      · simp [h1, h2, h3, natLE_length]
      · simp [h1, h2, h3, natLE_length]

theorem vi_head_ne_zero (n : ℕ) (h : n ≠ 0) : (vi n).getD 0 0 ≠ 0 := by
  rw [vi]
  by_cases h1 : n < 0xfd
  · simpa [h1] using h
  · by_cases h2 : n ≤ 0xffff
    · simp [h1, h2]
    · by_cases h3 : n ≤ 0xffffffff
      · simp [h1, h2, h3]
      · simp [h1, h2, h3]

/-- The decoder reads back exactly what `vi` wrote, at any offset. -/
theorem read_varint_at (pre suf : List ℕ) (n : ℕ) (h : n < 2 ^ 64) :
    read_varint (pre ++ (vi n ++ suf)) pre.length =
      (n, pre.length + (vi n).length) := by
  by_cases h1 : n < 0xfd
  · have hv : vi n = [n] := by rw [vi, if_pos h1]
    rw [hv, read_varint]
    rw [getD_append_len]
    simp [h1]
  · by_cases h2 : n ≤ 0xffff
    · have hv : vi n = 0xfd :: natLE 2 n := by rw [vi, if_neg h1, if_pos h2]
      rw [hv, read_varint]
      rw [getD_append_len]
      have hsp : pre ++ 0xfd :: (natLE 2 n ++ suf) =
          (pre ++ [0xfd]) ++ (natLE 2 n ++ suf) := by simp
      have hlen : (pre ++ [0xfd]).length = pre.length + 1 := by simp
      have hs : slice (pre ++ 0xfd :: (natLE 2 n ++ suf)) (pre.length + 1) 2
          = natLE 2 n := by
        rw [hsp, ← hlen, slice_append_of_length _ _ _ _ (natLE_length 2 n)]
      simp only [List.cons_append, List.getD_cons_zero]
      rw [hs, readLE_natLE]
      have : n % 256 ^ 2 = n := Nat.mod_eq_of_lt (by omega)
      simp [this, natLE_length]
      omega
    · by_cases h3 : n ≤ 0xffffffff
      · have hv : vi n = 0xfe :: natLE 4 n := by rw [vi, if_neg h1, if_neg h2, if_pos h3]
        rw [hv, read_varint]
        rw [getD_append_len]
        have hsp : pre ++ 0xfe :: (natLE 4 n ++ suf) =
            (pre ++ [0xfe]) ++ (natLE 4 n ++ suf) := by simp
        have hlen : (pre ++ [0xfe]).length = pre.length + 1 := by simp
        have hs : slice (pre ++ 0xfe :: (natLE 4 n ++ suf)) (pre.length + 1) 4
            = natLE 4 n := by
          rw [hsp, ← hlen, slice_append_of_length _ _ _ _ (natLE_length 4 n)]
        simp only [List.cons_append, List.getD_cons_zero]
        rw [hs, readLE_natLE]
        have : n % 256 ^ 4 = n := Nat.mod_eq_of_lt (by omega)
        simp [this, natLE_length]
        omega
      · have hv : vi n = 0xff :: natLE 8 n := by rw [vi, if_neg h1, if_neg h2, if_neg h3]
        rw [hv, read_varint]
        rw [getD_append_len]
        have hsp : pre ++ 0xff :: (natLE 8 n ++ suf) =
            (pre ++ [0xff]) ++ (natLE 8 n ++ suf) := by simp
        have hlen : (pre ++ [0xff]).length = pre.length + 1 := by simp
        have hs : slice (pre ++ 0xff :: (natLE 8 n ++ suf)) (pre.length + 1) 8
            = natLE 8 n := by
          rw [hsp, ← hlen, slice_append_of_length _ _ _ _ (natLE_length 8 n)]
        simp only [List.cons_append, List.getD_cons_zero]
        rw [hs, readLE_natLE]
        have : n % 256 ^ 8 = n := Nat.mod_eq_of_lt (by omega)
        simp [this, natLE_length]
        omega


/-! ## Claim C9: VarInt shape and decoder inverse -/

/-- **C9**: for `n < 2^64`, `vi n` is one byte below `0xfd`, `0xfd` plus
two little-endian bytes up to `0xffff`, `0xfe` plus four up to
`0xffffffff`, and `0xff` plus eight otherwise; and `read_varint` is a left
inverse of `vi`, returning `(n, index + length of vi n)` also when the
encoding is embedded after an arbitrary prefix. -/
theorem c9_varint_encode_decode (n : ℕ) (pre suf : List ℕ) (h : n < 2 ^ 64) :
    (n < 0xfd → vi n = [n]) ∧
    (0xfd ≤ n → n ≤ 0xffff → vi n = 0xfd :: natLE 2 n) ∧
    (0xffff < n → n ≤ 0xffffffff → vi n = 0xfe :: natLE 4 n) ∧
    (0xffffffff < n → vi n = 0xff :: natLE 8 n) ∧
    read_varint (pre ++ (vi n ++ suf)) pre.length = (n, pre.length + (vi n).length) := by
  refine ⟨?_, ?_, ?_, ?_, read_varint_at pre suf n h⟩
  · intro h1
    rw [vi, if_pos h1]
  · intro h1 h2
    rw [vi, if_neg (by omega), if_pos h2]
  · intro h1 h2
    rw [vi, if_neg (by omega), if_neg (by omega), if_pos h2]
  · intro h1
    rw [vi, if_neg (by omega), if_neg (by omega), if_neg (by omega)]

/-- Witness for C9: `n = 300` embedded after a one-byte prefix. -/
theorem c9_varint_encode_decode_witness :
    (300 : ℕ) < 2 ^ 64 ∧
    read_varint ([7] ++ (vi 300 ++ [9])) 1 = (300, 1 + (vi 300).length) :=
  ⟨by norm_num, (c9_varint_encode_decode 300 [7] [9] (by norm_num)).2.2.2.2⟩

/-! ## Claim C8: DER low-s encoding -/

theorem byteLen_le (fuel x k : ℕ) (hf : x ≤ fuel) (h : x < 256 ^ k) :
    byteLen fuel x ≤ k := by
  induction fuel generalizing x k with
  | zero => simp [byteLen]
  | succ f ih =>
    rw [byteLen]
    by_cases hx : x = 0
    · simp [hx]
    · rw [if_neg hx]
      have hk : 1 ≤ k := by
        rcases Nat.eq_zero_or_pos k with hk0 | hk0
        · subst hk0
          simp at h
          omega
        · omega
      have hdiv : x / 256 < 256 ^ (k - 1) := by
        have hpow : 256 ^ (k - 1) * 256 = 256 ^ k := by
          rw [← pow_succ]
          congr 1
          omega
        exact Nat.div_lt_of_lt_mul (by omega)
      have hf2 : x / 256 ≤ f := by
        have : x / 256 < x := Nat.div_lt_self (by omega) (by omega)
        omega
      have := ih (x / 256) (k - 1) hf2 hdiv
      omega

theorem natToBytesBE_length (x : ℕ) : (natToBytesBE x).length = byteLen x x := by
  rw [natToBytesBE, natBE, List.length_reverse, natLE_length]

theorem natToBytesBE_length_le (x k : ℕ) (h : x < 256 ^ k) :
    (natToBytesBE x).length ≤ k := by
  rw [natToBytesBE_length]
  exact byteLen_le x x k le_rfl h

theorem derPad_length_le (x : ℕ) (h : x < 2 ^ 256) : (derPad x).length ≤ 33 := by
  have h32 : (natToBytesBE x).length ≤ 32 := by
    apply natToBytesBE_length_le
    have : (256 : ℕ) ^ 32 = 2 ^ 256 := by norm_num
    omega
  rw [derPad]
  split
  · simp
    omega
  · omega

/-- **C8** (amended: `r < 2^256`, which covers every ECDSA output): for
`0 < r < 2^256` and `0 < s < n`, `der_low_s` emits exactly the byte string
`0x30 len 0x02 len(r) r 0x02 len(s') s'` with `s' = n - s` when
`s > n/2` and `s' = s` otherwise (`sLow`), a `0x00` prepended exactly when
the leading byte has the high bit set (`derPad`), and the encoded `s'`
satisfies `s' ≤ n/2`. -/
theorem c8_der_low_s (r s : ℕ) (hr0 : 0 < r) (hrB : r < 2 ^ 256) (hs0 : 0 < s)
    (hsn : s < secpOrder) :
    der_low_s r s = some (derLowSSpec r s) ∧ sLow s ≤ secpOrder / 2 := by
  have hslow : sLow s ≤ secpOrder / 2 := by
    rw [sLow]
    split
    · have : secpOrder = 0xFFFFFFFFFFFFFFFFFFFFFFFFFFFFFFFEBAAEDCE6AF48A03BBFD25E8CD0364141 := rfl
      omega
    · omega
  refine ⟨?_, hslow⟩
  have hsB : sLow s < 2 ^ 256 := by
    have h1 : secpOrder < 2 ^ 256 := by norm_num [secpOrder]
    have h2 : sLow s ≤ secpOrder := by
      rw [sLow]
      split <;> omega
    omega
  have hr33 : (derPad r).length ≤ 33 := derPad_length_le r hrB
  have hs33 : (derPad (sLow s)).length ≤ 33 := derPad_length_le (sLow s) hsB
  rw [der_low_s, derLowSSpec]
  rw [if_pos (by omega)]

/-- Witness for C8 at `(r, s) = (1, 1)`. -/
theorem c8_der_low_s_witness :
    der_low_s 1 1 = some (derLowSSpec 1 1) ∧ sLow 1 ≤ secpOrder / 2 :=
  c8_der_low_s 1 1 (by norm_num) (by norm_num) (by norm_num) (by decide)

/-- Counterexample to C8 as stated (quantifying over all integers
`r > 0`): at `r = 2^2032` (a 255-byte value) the total-length byte would
be 260, so the Python source raises `ValueError` from `bytes([260])`
instead of emitting a DER string — the embedding returns `none`. -/
theorem c8_der_low_s_counterexample :
    (0 : ℕ) < 2 ^ 2032 ∧ (0 : ℕ) < 1 ∧ (1 : ℕ) < secpOrder ∧
    der_low_s (2 ^ 2032) 1 = none := by
  refine ⟨by positivity, by norm_num, by decide, by decide⟩


/-! ## Claim C10: multisig redeem script parse/encode round trip -/

theorem opPushFlatten_ge (pks : List (List ℕ))
    (hlen : ∀ pk ∈ pks, 33 ≤ pk.length) :
    34 * pks.length ≤ ((pks.map op_push).flatten).length := by
  induction pks with
  | nil => simp
  | cons pk rest ih =>
    have h1 : 33 ≤ pk.length := hlen pk (List.mem_cons_self pk rest)
    have h2 := ih fun q hq => hlen q (List.mem_cons_of_mem _ hq)
    simp only [List.map_cons, List.flatten_cons, List.length_append, op_push,
      List.length_cons]
    omega

/-- The scanning loop consumes exactly the pushed pubkeys laid out after an
arbitrary prefix, stopping right at the two trailing bytes. -/
theorem parseMsLoop_append (pks : List (List ℕ)) :
    ∀ fuel (pre tail : List ℕ) acc,
      (∀ pk ∈ pks, pk.length = 33 ∨ pk.length = 65) →
      pks.length < fuel →
      tail.length = 2 →
      parseMsLoop (pre ++ ((pks.map op_push).flatten ++ tail)) fuel pre.length acc
        = acc ++ pks := by
  induction pks with
  | nil =>
    intro fuel pre tail acc hlen hf ht
    obtain ⟨f, rfl⟩ : ∃ f, fuel = f + 1 := ⟨fuel - 1, by omega⟩
    rw [parseMsLoop]
    have hc : ¬(pre.length + 2 <
        (pre ++ ((List.map op_push []).flatten ++ tail)).length) := by
      simp [ht]
    rw [if_neg hc]
    simp
  | cons pk rest ih =>
    intro fuel pre tail acc hlen hf ht
    obtain ⟨f, rfl⟩ : ∃ f, fuel = f + 1 := ⟨fuel - 1, by omega⟩
    have hpk : pk.length = 33 ∨ pk.length = 65 := hlen pk (List.mem_cons_self pk rest)
    have hpk33 : 33 ≤ pk.length := by rcases hpk with h | h <;> omega
    have hslen : (pre ++ ((List.map op_push (pk :: rest)).flatten ++ tail)).length =
        pre.length + 1 + pk.length + ((List.map op_push rest).flatten).length + 2 := by
      simp [op_push, ht]
      omega
    have hget : (pre ++ ((List.map op_push (pk :: rest)).flatten ++ tail)).getD
        pre.length 0 = pk.length := by
      have hform : pre ++ ((List.map op_push (pk :: rest)).flatten ++ tail) =
          pre ++ (pk.length :: (pk ++ ((List.map op_push rest).flatten ++ tail))) := by
        simp [op_push]
      rw [hform, getD_append_len, List.getD_cons_zero]
    have hslice : slice (pre ++ ((List.map op_push (pk :: rest)).flatten ++ tail))
        (pre.length + 1) pk.length = pk := by
      have hform : pre ++ ((List.map op_push (pk :: rest)).flatten ++ tail) =
          (pre ++ [pk.length]) ++ (pk ++ ((List.map op_push rest).flatten ++ tail)) := by
        simp [op_push]
      have hl : (pre ++ [pk.length]).length = pre.length + 1 := by simp
      rw [hform, ← hl, slice_append_of_length _ _ _ _ rfl]
    rw [parseMsLoop, if_pos (by omega), hget, if_pos hpk, if_neg (by omega), hslice]
    have hform : pre ++ ((List.map op_push (pk :: rest)).flatten ++ tail) =
        (pre ++ op_push pk) ++ ((List.map op_push rest).flatten ++ tail) := by
      simp [op_push]
    have hpos : pre.length + 1 + pk.length = (pre ++ op_push pk).length := by
      simp [op_push]
      omega
    rw [hform, hpos,
      ih f (pre ++ op_push pk) tail (acc ++ [pk])
        (fun q hq => hlen q (List.mem_cons_of_mem _ hq))
        (by simp only [List.length_cons] at hf; omega) ht]
    simp

/-- **C10**: for `1 ≤ m ≤ n ≤ 16` and every list of `n` pubkeys of length
33 or 65, `parse_multisig_redeem_script` applied to the script
`OP_m <push pk_1> … <push pk_n> OP_n OP_CHECKMULTISIG` built by
`_encode_multisig_redeem` returns exactly that pubkey list in order. -/
theorem c10_parse_encode_roundtrip (m n : ℕ) (pks : List (List ℕ))
    (hm : 1 ≤ m) (hmn : m ≤ n) (hn : n ≤ 16) (hcount : pks.length = n)
    (hlen : ∀ pk ∈ pks, pk.length = 33 ∨ pk.length = 65) :
    encode_multisig_redeem m pks n =
        .ok ([0x50 + m] ++ ((pks.map op_push).flatten ++ [0x50 + n, 0xAE])) ∧
    parse_multisig_redeem_script
        ([0x50 + m] ++ ((pks.map op_push).flatten ++ [0x50 + n, 0xAE])) = .ok pks := by
  have h33 : ∀ pk ∈ pks, 33 ≤ pk.length := by
    intro pk hpk
    rcases hlen pk hpk with h | h <;> omega
  have hflat := opPushFlatten_ge pks h33
  have hslen : ([0x50 + m] ++ ((pks.map op_push).flatten ++ [0x50 + n, 0xAE])).length =
      ((pks.map op_push).flatten).length + 3 := by
    simp
  constructor
  · have hcond : (pks.any fun pk => decide (pk.length ≠ 33 ∧ pk.length ≠ 65)) = false := by
      simp only [List.any_eq_false, decide_eq_false_iff_not]
      intro pk hpk
      rcases hlen pk hpk with h | h <;> simp [h]
    rw [encode_multisig_redeem, if_neg (not_not.mpr ⟨hm, hmn, hn⟩), hcond]
    rw [if_neg (by simp)]
    simp
  · have hhead : ([0x50 + m] ++ ((pks.map op_push).flatten ++ [0x50 + n, 0xAE])).getD 0 0
        = 0x50 + m := by
      simp
    rw [parse_multisig_redeem_script, if_neg (by omega), if_neg (by rw [hhead]; omega)]
    have happ := parseMsLoop_append pks
      ([0x50 + m] ++ ((pks.map op_push).flatten ++ [0x50 + n, 0xAE])).length
      [0x50 + m] [0x50 + n, 0xAE] [] hlen (by omega) rfl
    simp only [List.length_singleton, List.nil_append] at happ
    rw [happ]

/-- Witness for C10: a 1-of-1 multisig over one 33-byte pubkey. -/
theorem c10_parse_encode_roundtrip_witness :
    encode_multisig_redeem 1 [List.replicate 33 2] 1 =
        .ok ([0x51] ++ (([List.replicate 33 2].map op_push).flatten ++ [0x51, 0xAE])) ∧
    parse_multisig_redeem_script
        ([0x51] ++ (([List.replicate 33 2].map op_push).flatten ++ [0x51, 0xAE])) =
      .ok [List.replicate 33 2] :=
  c10_parse_encode_roundtrip 1 1 [List.replicate 33 2] (by norm_num) (by norm_num)
    (by norm_num) (by simp) (by simp)


/-! ## Claim C6: SegWit marker emission rule -/

theorem vi_ne_nil (n : ℕ) : vi n ≠ [] := by
  rw [vi]
  split
  · simp
  · split
    · simp
    · split
      · simp
      · simp

theorem getD_zero_append (a b : List ℕ) (d : ℕ) (h : a ≠ []) :
    (a ++ b).getD 0 d = a.getD 0 d := by
  cases a with
  | nil => exact absurd rfl h
  | cons x xs => rfl

theorem getD_take (l : List ℕ) (n i d : ℕ) (h : i < n) :
    (l.take n).getD i d = l.getD i d := by
  rw [List.getD_eq_getElem?_getD, List.getD_eq_getElem?_getD, List.getElem?_take,
    if_pos h]

theorem getD_append_at (pre rest : List ℕ) (i k d : ℕ) (hi : i = pre.length + k) :
    (pre ++ rest).getD i d = rest.getD k d := by
  rw [hi, getD_append_add]

theorem take_append_at (pre rest : List ℕ) (i k : ℕ) (hi : i = pre.length + k) :
    (pre ++ rest).take i = pre ++ rest.take k := by
  rw [hi, List.take_append]

/-- **C6** (amended: transactions with at least one input): the serialized
bytes begin with `version(4 LE) || 0x00 0x01` iff some witness stack is
non-empty, and with no witness data both serializers produce exactly the
stripped form `version || vi(n_in) || inputs || vi(n_out) || outputs ||
locktime`.  (A zero-input one-output transaction serializes to
`version || 0x00 0x01 …` in stripped form, hence the restriction.) -/
theorem c6_segwit_marker_iff (tx : Transaction) (h : tx.inputs ≠ []) :
    (tx.serialize.take 6 = natLE 4 tx.version ++ [0x00, 0x01] ↔
      tx.has_witness_data = true) ∧
    (tx.has_witness_data = false →
      tx.serialize =
        natLE 4 tx.version ++
          (vi tx.inputs.length ++ (tx.inputs.map TransactionInput.serialize).flatten) ++
          (vi tx.outputs.length ++ (tx.outputs.map TransactionOutput.serialize).flatten) ++
          natLE 4 tx.locktime ∧
      tx.serialize_with_witness =
        natLE 4 tx.version ++
          (vi tx.inputs.length ++ (tx.inputs.map TransactionInput.serialize).flatten) ++
          (vi tx.outputs.length ++ (tx.outputs.map TransactionOutput.serialize).flatten) ++
          natLE 4 tx.locktime) := by
  constructor
  · constructor
    · intro htake
      by_contra hw
      have hwf : tx.has_witness_data = false := by
        cases hb : tx.has_witness_data
        · rfl
        · exact absurd hb hw
      have hser : tx.serialize = tx.serialize_without_witness := by
        rw [Transaction.serialize, if_neg (by simp [hwf])]
      have h40 : (tx.serialize.take 6).getD 4 0 = 0 := by
        rw [htake, getD_append_at _ _ 4 0 0 (by rw [natLE_length])]
        rfl
      have h4s : tx.serialize.getD 4 0 ≠ 0 := by
        rw [hser, Transaction.serialize_without_witness]
        simp only [List.append_assoc]
        rw [getD_append_at _ _ 4 0 0 (by rw [natLE_length]),
          getD_zero_append _ _ _ (vi_ne_nil _)]
        exact vi_head_ne_zero _ (by simpa using h)
      exact h4s (by rw [← getD_take tx.serialize 6 4 0 (by norm_num), h40])
    · intro hw
      have hser : tx.serialize = tx.serialize_with_witness := by
        rw [Transaction.serialize, if_pos (by simp [hw])]
      rw [hser, Transaction.serialize_with_witness, if_neg (by simp [hw])]
      simp only [List.append_assoc]
      rw [take_append_at _ _ 6 2 (by rw [natLE_length])]
      rfl
  · intro hwf
    constructor
    · rw [Transaction.serialize, if_neg (by simp [hwf]),
        Transaction.serialize_without_witness]
    · rw [Transaction.serialize_with_witness, if_pos (by simp [hwf]),
        Transaction.serialize_without_witness]

/-- Witness for C6 at a one-input no-witness transaction. -/
theorem c6_segwit_marker_iff_witness :
    ((⟨1, [⟨List.replicate 32 0xaa, 0, [], 0xffffffff⟩], [⟨5, [0x51]⟩], [[]], 0⟩ :
        Transaction).serialize.take 6 = natLE 4 1 ++ [0x00, 0x01] ↔
      (⟨1, [⟨List.replicate 32 0xaa, 0, [], 0xffffffff⟩], [⟨5, [0x51]⟩], [[]], 0⟩ :
        Transaction).has_witness_data = true) :=
  (c6_segwit_marker_iff _ (by decide)).1

/-- Counterexample to C6 as stated for every transaction value: the
zero-input one-output transaction has no witness data, yet its (stripped)
serialization begins with `version || 0x00 0x01`. -/
theorem c6_segwit_marker_counterexample :
    (⟨1, [], [⟨0, []⟩], [], 0⟩ : Transaction).has_witness_data = false ∧
    (⟨1, [], [⟨0, []⟩], [], 0⟩ : Transaction).serialize.take 6 =
      natLE 4 1 ++ [0x00, 0x01] := by
  decide


/-! ## Claim C7: output parsing inverts serialization -/

theorem read_varint_at2 (pre suf : List ℕ) (n i : ℕ) (hi : i = pre.length)
    (h : n < 2 ^ 64) :
    read_varint (pre ++ (vi n ++ suf)) i = (n, i + (vi n).length) := by
  subst hi
  exact read_varint_at pre suf n h

theorem slice_at2 (pre mid suf : List ℕ) (i k : ℕ) (hi : i = pre.length)
    (hk : mid.length = k) :
    slice (pre ++ (mid ++ suf)) i k = mid := by
  subst hi
  exact slice_append_of_length pre mid suf k hk

/-- Skipping `inputs.length` serialized inputs advances the index to the
end of their serialization. -/
theorem skipInputs_append (inputs : List TransactionInput) :
    ∀ (pre suf : List ℕ) (i : ℕ), i = pre.length →
      (∀ inp ∈ inputs, inp.txid.length = 32 ∧ inp.script_sig.length < 2 ^ 64) →
      skipInputs (pre ++ ((inputs.map TransactionInput.serialize).flatten ++ suf))
          i inputs.length
        = i + ((inputs.map TransactionInput.serialize).flatten).length := by
  induction inputs with
  | nil =>
    intro pre suf i hi hwf
    simp [skipInputs]
  | cons inp rest ih =>
    intro pre suf i hi hwf
    obtain ⟨ht32, hss⟩ := hwf inp (List.mem_cons_self inp rest)
    have hrev : inp.txid.reverse.length = 32 := by
      rw [List.length_reverse, ht32]
    have hb : pre ++ ((inp.serialize ++
          (rest.map TransactionInput.serialize).flatten) ++ suf) =
        (pre ++ inp.txid.reverse ++ natLE 4 inp.vout) ++
          (vi inp.script_sig.length ++
            (inp.script_sig ++ (natLE 4 inp.sequence ++
              ((rest.map TransactionInput.serialize).flatten ++ suf)))) := by
      simp [TransactionInput.serialize, List.append_assoc]
    have hplen : i + 36 = (pre ++ inp.txid.reverse ++ natLE 4 inp.vout).length := by
      simp only [List.length_append, natLE_length, hrev]
      omega
    have hr := read_varint_at2 (pre ++ inp.txid.reverse ++ natLE 4 inp.vout)
      (inp.script_sig ++ (natLE 4 inp.sequence ++
        ((rest.map TransactionInput.serialize).flatten ++ suf)))
      inp.script_sig.length (i + 36) hplen hss
    rw [← hb] at hr
    have hserlen : inp.serialize.length =
        36 + ((vi inp.script_sig.length).length + (inp.script_sig.length + 4)) := by
      simp only [TransactionInput.serialize, List.length_append, natLE_length, hrev]
      omega
    have hb2 : pre ++ ((inp.serialize ++
          (rest.map TransactionInput.serialize).flatten) ++ suf) =
        (pre ++ inp.serialize) ++
          ((rest.map TransactionInput.serialize).flatten ++ suf) := by
      simp [List.append_assoc]
    have hrec := ih (pre ++ inp.serialize) suf
      (i + 36 + (vi inp.script_sig.length).length + inp.script_sig.length + 4)
      (by simp only [List.length_append]; omega)
      (fun q hq => hwf q (List.mem_cons_of_mem _ hq))
    rw [← hb2] at hrec
    simp only [List.map_cons, List.flatten_cons, List.length_cons]
    rw [skipInputs]
    rw [hr]
    dsimp only
    rw [hrec]
    simp only [List.length_append]
    omega

/-- Reading `outs.length` serialized outputs returns their
`(value, scriptPubKey)` pairs. -/
theorem readOutputs_append (outs : List TransactionOutput) :
    ∀ (pre suf : List ℕ) (i : ℕ), i = pre.length →
      (∀ o ∈ outs, o.value < 2 ^ 64 ∧ o.script_pubkey.length < 2 ^ 64) →
      readOutputs (pre ++ ((outs.map TransactionOutput.serialize).flatten ++ suf))
          i outs.length
        = outs.map fun o => (o.value, o.script_pubkey) := by
  induction outs with
  | nil =>
    intro pre suf i hi hwf
    simp [readOutputs]
  | cons o rest ih =>
    intro pre suf i hi hwf
    obtain ⟨hv, hl⟩ := hwf o (List.mem_cons_self o rest)
    have hb : pre ++ ((o.serialize ++
          (rest.map TransactionOutput.serialize).flatten) ++ suf) =
        pre ++ (natLE 8 o.value ++
          (vi o.script_pubkey.length ++ (o.script_pubkey ++
            ((rest.map TransactionOutput.serialize).flatten ++ suf)))) := by
      simp [TransactionOutput.serialize, List.append_assoc]
    have hval : slice (pre ++ ((o.serialize ++
          (rest.map TransactionOutput.serialize).flatten) ++ suf)) i 8 =
        natLE 8 o.value := by
      rw [hb]
      exact slice_at2 pre (natLE 8 o.value) _ i 8 hi (natLE_length 8 o.value)
    have hr : read_varint (pre ++ ((o.serialize ++
          (rest.map TransactionOutput.serialize).flatten) ++ suf)) (i + 8) =
        (o.script_pubkey.length,
          i + 8 + (vi o.script_pubkey.length).length) := by
      rw [hb]
      have hb3 : pre ++ (natLE 8 o.value ++
          (vi o.script_pubkey.length ++ (o.script_pubkey ++
            ((rest.map TransactionOutput.serialize).flatten ++ suf)))) =
          (pre ++ natLE 8 o.value) ++
            (vi o.script_pubkey.length ++ (o.script_pubkey ++
              ((rest.map TransactionOutput.serialize).flatten ++ suf))) := by
        simp [List.append_assoc]
      rw [hb3]
      exact read_varint_at2 (pre ++ natLE 8 o.value) _ o.script_pubkey.length (i + 8)
        (by simp only [List.length_append, natLE_length]; omega) hl
    have hspk : slice (pre ++ ((o.serialize ++
          (rest.map TransactionOutput.serialize).flatten) ++ suf))
          (i + 8 + (vi o.script_pubkey.length).length) o.script_pubkey.length =
        o.script_pubkey := by
      rw [hb]
      have hb4 : pre ++ (natLE 8 o.value ++
          (vi o.script_pubkey.length ++ (o.script_pubkey ++
            ((rest.map TransactionOutput.serialize).flatten ++ suf)))) =
          (pre ++ natLE 8 o.value ++ vi o.script_pubkey.length) ++
            (o.script_pubkey ++
              ((rest.map TransactionOutput.serialize).flatten ++ suf)) := by
        simp [List.append_assoc]
      rw [hb4]
      exact slice_at2 _ o.script_pubkey _ _ o.script_pubkey.length
        (by simp only [List.length_append, natLE_length]; omega) rfl
    have hserlen : o.serialize.length =
        8 + ((vi o.script_pubkey.length).length + o.script_pubkey.length) := by
      simp only [TransactionOutput.serialize, List.length_append, natLE_length]
    have hrec := ih (pre ++ o.serialize) suf
      (i + 8 + (vi o.script_pubkey.length).length + o.script_pubkey.length)
      (by simp only [List.length_append]; omega)
      (fun q hq => hwf q (List.mem_cons_of_mem _ hq))
    have hb2 : pre ++ ((o.serialize ++
          (rest.map TransactionOutput.serialize).flatten) ++ suf) =
        (pre ++ o.serialize) ++
          ((rest.map TransactionOutput.serialize).flatten ++ suf) := by
      simp [List.append_assoc]
    rw [← hb2] at hrec
    simp only [List.map_cons, List.flatten_cons, List.length_cons]
    rw [readOutputs]
    rw [hr]
    dsimp only
    rw [hval, hspk, readLE_natLE]
    have hmod : o.value % 256 ^ 8 = o.value := by
      have hp : (256 : ℕ) ^ 8 = 2 ^ 64 := by norm_num
      omega
    rw [hmod, hrec]


theorem parse_outputs_stripped (tx : Transaction) (h : tx.inputs ≠ [])
    (hwf : WfTx tx) :
    parse_transaction_outputs tx.serialize_without_witness =
      tx.outputs.map fun o => (o.value, o.script_pubkey) := by
  obtain ⟨hwIn, hwOut, hnin, hnout⟩ := hwf
  have hne : tx.inputs.length ≠ 0 := by simpa using h
  have hb : tx.serialize_without_witness =
      natLE 4 tx.version ++ (vi tx.inputs.length ++
        ((tx.inputs.map TransactionInput.serialize).flatten ++
          (vi tx.outputs.length ++
            ((tx.outputs.map TransactionOutput.serialize).flatten ++
              natLE 4 tx.locktime)))) := by
    simp [Transaction.serialize_without_witness, List.append_assoc]
  rw [hb]
  have hnotW : ¬(4 + 2 ≤ (natLE 4 tx.version ++ (vi tx.inputs.length ++
        ((tx.inputs.map TransactionInput.serialize).flatten ++
          (vi tx.outputs.length ++
            ((tx.outputs.map TransactionOutput.serialize).flatten ++
              natLE 4 tx.locktime))))).length ∧
      (natLE 4 tx.version ++ (vi tx.inputs.length ++
        ((tx.inputs.map TransactionInput.serialize).flatten ++
          (vi tx.outputs.length ++
            ((tx.outputs.map TransactionOutput.serialize).flatten ++
              natLE 4 tx.locktime))))).getD 4 0 = 0 ∧
      (natLE 4 tx.version ++ (vi tx.inputs.length ++
        ((tx.inputs.map TransactionInput.serialize).flatten ++
          (vi tx.outputs.length ++
            ((tx.outputs.map TransactionOutput.serialize).flatten ++
              natLE 4 tx.locktime))))).getD 5 0 ≠ 0) := by
    intro hP
    have h4 := hP.2.1
    rw [getD_append_at _ _ 4 0 0 (by rw [natLE_length]),
      getD_zero_append _ _ _ (vi_ne_nil _)] at h4
    exact vi_head_ne_zero _ hne h4
  simp only [parse_transaction_outputs]
  rw [if_neg hnotW]
  have hrIn : read_varint (natLE 4 tx.version ++ (vi tx.inputs.length ++
      ((tx.inputs.map TransactionInput.serialize).flatten ++
        (vi tx.outputs.length ++
          ((tx.outputs.map TransactionOutput.serialize).flatten ++
            natLE 4 tx.locktime))))) 4 =
      (tx.inputs.length, 4 + (vi tx.inputs.length).length) :=
    read_varint_at2 (natLE 4 tx.version) _ tx.inputs.length 4
      (by rw [natLE_length]) hnin
  rw [hrIn]
  dsimp only
  have hskip : skipInputs (natLE 4 tx.version ++ (vi tx.inputs.length ++
      ((tx.inputs.map TransactionInput.serialize).flatten ++
        (vi tx.outputs.length ++
          ((tx.outputs.map TransactionOutput.serialize).flatten ++
            natLE 4 tx.locktime)))))
      (4 + (vi tx.inputs.length).length) tx.inputs.length =
      4 + (vi tx.inputs.length).length +
        ((tx.inputs.map TransactionInput.serialize).flatten).length := by
    have hb2 : natLE 4 tx.version ++ (vi tx.inputs.length ++
        ((tx.inputs.map TransactionInput.serialize).flatten ++
          (vi tx.outputs.length ++
            ((tx.outputs.map TransactionOutput.serialize).flatten ++
              natLE 4 tx.locktime)))) =
        (natLE 4 tx.version ++ vi tx.inputs.length) ++
          ((tx.inputs.map TransactionInput.serialize).flatten ++
            (vi tx.outputs.length ++
              ((tx.outputs.map TransactionOutput.serialize).flatten ++
                natLE 4 tx.locktime))) := by
      simp [List.append_assoc]
    rw [hb2]
    exact skipInputs_append tx.inputs _ _ _
      (by simp only [List.length_append, natLE_length]) hwIn
  rw [hskip]
  have hrOut : read_varint (natLE 4 tx.version ++ (vi tx.inputs.length ++
      ((tx.inputs.map TransactionInput.serialize).flatten ++
        (vi tx.outputs.length ++
          ((tx.outputs.map TransactionOutput.serialize).flatten ++
            natLE 4 tx.locktime)))))
      (4 + (vi tx.inputs.length).length +
        ((tx.inputs.map TransactionInput.serialize).flatten).length) =
      (tx.outputs.length,
        4 + (vi tx.inputs.length).length +
          ((tx.inputs.map TransactionInput.serialize).flatten).length +
          (vi tx.outputs.length).length) := by
    have hb3 : natLE 4 tx.version ++ (vi tx.inputs.length ++
        ((tx.inputs.map TransactionInput.serialize).flatten ++
          (vi tx.outputs.length ++
            ((tx.outputs.map TransactionOutput.serialize).flatten ++
              natLE 4 tx.locktime)))) =
        (natLE 4 tx.version ++ vi tx.inputs.length ++
          (tx.inputs.map TransactionInput.serialize).flatten) ++
          (vi tx.outputs.length ++
            ((tx.outputs.map TransactionOutput.serialize).flatten ++
              natLE 4 tx.locktime)) := by
      simp [List.append_assoc]
    rw [hb3]
    exact read_varint_at2 _ _ tx.outputs.length _
      (by simp only [List.length_append, natLE_length]) hnout
  rw [hrOut]
  dsimp only
  have hro : readOutputs (natLE 4 tx.version ++ (vi tx.inputs.length ++
      ((tx.inputs.map TransactionInput.serialize).flatten ++
        (vi tx.outputs.length ++
          ((tx.outputs.map TransactionOutput.serialize).flatten ++
            natLE 4 tx.locktime)))))
      (4 + (vi tx.inputs.length).length +
        ((tx.inputs.map TransactionInput.serialize).flatten).length +
        (vi tx.outputs.length).length) tx.outputs.length =
      tx.outputs.map fun o => (o.value, o.script_pubkey) := by
    have hb4 : natLE 4 tx.version ++ (vi tx.inputs.length ++
        ((tx.inputs.map TransactionInput.serialize).flatten ++
          (vi tx.outputs.length ++
            ((tx.outputs.map TransactionOutput.serialize).flatten ++
              natLE 4 tx.locktime)))) =
        (natLE 4 tx.version ++ vi tx.inputs.length ++
          (tx.inputs.map TransactionInput.serialize).flatten ++
          vi tx.outputs.length) ++
          ((tx.outputs.map TransactionOutput.serialize).flatten ++
            natLE 4 tx.locktime) := by
      simp [List.append_assoc]
    rw [hb4]
    exact readOutputs_append tx.outputs _ _ _
      (by simp only [List.length_append, natLE_length]) hwOut
  rw [hro]


theorem parse_outputs_marker (tx : Transaction) (hwt : tx.has_witness_data = true)
    (hwf : WfTx tx) :
    parse_transaction_outputs tx.serialize_with_witness =
      tx.outputs.map fun o => (o.value, o.script_pubkey) := by
  obtain ⟨hwIn, hwOut, hnin, hnout⟩ := hwf
  have hb : tx.serialize_with_witness =
      natLE 4 tx.version ++ ([0x00, 0x01] ++ (vi tx.inputs.length ++
        ((tx.inputs.map TransactionInput.serialize).flatten ++
          (vi tx.outputs.length ++
            ((tx.outputs.map TransactionOutput.serialize).flatten ++
              (witnessSection tx.witnesses ++ natLE 4 tx.locktime)))))) := by
    rw [Transaction.serialize_with_witness, if_neg (by simp [hwt])]
    simp [List.append_assoc]
  rw [hb]
  have hW : 4 + 2 ≤ (natLE 4 tx.version ++ ([0x00, 0x01] ++ (vi tx.inputs.length ++
        ((tx.inputs.map TransactionInput.serialize).flatten ++
          (vi tx.outputs.length ++
            ((tx.outputs.map TransactionOutput.serialize).flatten ++
              (witnessSection tx.witnesses ++ natLE 4 tx.locktime))))))).length ∧
      (natLE 4 tx.version ++ ([0x00, 0x01] ++ (vi tx.inputs.length ++
        ((tx.inputs.map TransactionInput.serialize).flatten ++
          (vi tx.outputs.length ++
            ((tx.outputs.map TransactionOutput.serialize).flatten ++
              (witnessSection tx.witnesses ++ natLE 4 tx.locktime))))))).getD 4 0 = 0 ∧
      (natLE 4 tx.version ++ ([0x00, 0x01] ++ (vi tx.inputs.length ++
        ((tx.inputs.map TransactionInput.serialize).flatten ++
          (vi tx.outputs.length ++
            ((tx.outputs.map TransactionOutput.serialize).flatten ++
              (witnessSection tx.witnesses ++ natLE 4 tx.locktime))))))).getD 5 0 ≠ 0 := by
    refine ⟨?_, ?_, ?_⟩
    · simp only [List.length_append, List.length_cons, natLE_length]
      omega
    · rw [getD_append_at _ _ 4 0 0 (by rw [natLE_length])]
      rfl
    · rw [getD_append_at _ _ 5 1 0 (by rw [natLE_length])]
      exact Nat.one_ne_zero
  simp only [parse_transaction_outputs]
  rw [if_pos hW]
  have hrIn : read_varint (natLE 4 tx.version ++ ([0x00, 0x01] ++ (vi tx.inputs.length ++
      ((tx.inputs.map TransactionInput.serialize).flatten ++
        (vi tx.outputs.length ++
          ((tx.outputs.map TransactionOutput.serialize).flatten ++
            (witnessSection tx.witnesses ++ natLE 4 tx.locktime))))))) 6 =
      (tx.inputs.length, 6 + (vi tx.inputs.length).length) := by
    have hb2 : natLE 4 tx.version ++ ([0x00, 0x01] ++ (vi tx.inputs.length ++
        ((tx.inputs.map TransactionInput.serialize).flatten ++
          (vi tx.outputs.length ++
            ((tx.outputs.map TransactionOutput.serialize).flatten ++
              (witnessSection tx.witnesses ++ natLE 4 tx.locktime)))))) =
        (natLE 4 tx.version ++ [0x00, 0x01]) ++ (vi tx.inputs.length ++
          ((tx.inputs.map TransactionInput.serialize).flatten ++
            (vi tx.outputs.length ++
              ((tx.outputs.map TransactionOutput.serialize).flatten ++
                (witnessSection tx.witnesses ++ natLE 4 tx.locktime))))) := by
      simp [List.append_assoc]
    rw [hb2]
    exact read_varint_at2 _ _ tx.inputs.length 6
      (by simp only [List.length_append, List.length_cons, List.length_nil, natLE_length]) hnin
  rw [hrIn]
  dsimp only
  have hskip : skipInputs (natLE 4 tx.version ++ ([0x00, 0x01] ++ (vi tx.inputs.length ++
      ((tx.inputs.map TransactionInput.serialize).flatten ++
        (vi tx.outputs.length ++
          ((tx.outputs.map TransactionOutput.serialize).flatten ++
            (witnessSection tx.witnesses ++ natLE 4 tx.locktime)))))))
      (6 + (vi tx.inputs.length).length) tx.inputs.length =
      6 + (vi tx.inputs.length).length +
        ((tx.inputs.map TransactionInput.serialize).flatten).length := by
    have hb2 : natLE 4 tx.version ++ ([0x00, 0x01] ++ (vi tx.inputs.length ++
        ((tx.inputs.map TransactionInput.serialize).flatten ++
          (vi tx.outputs.length ++
            ((tx.outputs.map TransactionOutput.serialize).flatten ++
              (witnessSection tx.witnesses ++ natLE 4 tx.locktime)))))) =
        (natLE 4 tx.version ++ [0x00, 0x01] ++ vi tx.inputs.length) ++
          ((tx.inputs.map TransactionInput.serialize).flatten ++
            (vi tx.outputs.length ++
              ((tx.outputs.map TransactionOutput.serialize).flatten ++
                (witnessSection tx.witnesses ++ natLE 4 tx.locktime)))) := by
      simp [List.append_assoc]
    rw [hb2]
    exact skipInputs_append tx.inputs _ _ _
      (by simp only [List.length_append, List.length_cons, List.length_nil, natLE_length]) hwIn
  rw [hskip]
  have hrOut : read_varint (natLE 4 tx.version ++ ([0x00, 0x01] ++ (vi tx.inputs.length ++
      ((tx.inputs.map TransactionInput.serialize).flatten ++
        (vi tx.outputs.length ++
          ((tx.outputs.map TransactionOutput.serialize).flatten ++
            (witnessSection tx.witnesses ++ natLE 4 tx.locktime)))))))
      (6 + (vi tx.inputs.length).length +
        ((tx.inputs.map TransactionInput.serialize).flatten).length) =
      (tx.outputs.length,
        6 + (vi tx.inputs.length).length +
          ((tx.inputs.map TransactionInput.serialize).flatten).length +
          (vi tx.outputs.length).length) := by
    have hb3 : natLE 4 tx.version ++ ([0x00, 0x01] ++ (vi tx.inputs.length ++
        ((tx.inputs.map TransactionInput.serialize).flatten ++
          (vi tx.outputs.length ++
            ((tx.outputs.map TransactionOutput.serialize).flatten ++
              (witnessSection tx.witnesses ++ natLE 4 tx.locktime)))))) =
        (natLE 4 tx.version ++ [0x00, 0x01] ++ vi tx.inputs.length ++
          (tx.inputs.map TransactionInput.serialize).flatten) ++
          (vi tx.outputs.length ++
            ((tx.outputs.map TransactionOutput.serialize).flatten ++
              (witnessSection tx.witnesses ++ natLE 4 tx.locktime))) := by
      simp [List.append_assoc]
    rw [hb3]
    exact read_varint_at2 _ _ tx.outputs.length _
      (by simp only [List.length_append, List.length_cons, List.length_nil, natLE_length]) hnout
  rw [hrOut]
  dsimp only
  have hro : readOutputs (natLE 4 tx.version ++ ([0x00, 0x01] ++ (vi tx.inputs.length ++
      ((tx.inputs.map TransactionInput.serialize).flatten ++
        (vi tx.outputs.length ++
          ((tx.outputs.map TransactionOutput.serialize).flatten ++
            (witnessSection tx.witnesses ++ natLE 4 tx.locktime)))))))
      (6 + (vi tx.inputs.length).length +
        ((tx.inputs.map TransactionInput.serialize).flatten).length +
        (vi tx.outputs.length).length) tx.outputs.length =
      tx.outputs.map fun o => (o.value, o.script_pubkey) := by
    have hb4 : natLE 4 tx.version ++ ([0x00, 0x01] ++ (vi tx.inputs.length ++
        ((tx.inputs.map TransactionInput.serialize).flatten ++
          (vi tx.outputs.length ++
            ((tx.outputs.map TransactionOutput.serialize).flatten ++
              (witnessSection tx.witnesses ++ natLE 4 tx.locktime)))))) =
        (natLE 4 tx.version ++ [0x00, 0x01] ++ vi tx.inputs.length ++
          (tx.inputs.map TransactionInput.serialize).flatten ++
          vi tx.outputs.length) ++
          ((tx.outputs.map TransactionOutput.serialize).flatten ++
            (witnessSection tx.witnesses ++ natLE 4 tx.locktime)) := by
      simp [List.append_assoc]
    rw [hb4]
    exact readOutputs_append tx.outputs _ _ _
      (by simp only [List.length_append, List.length_cons, List.length_nil, natLE_length]) hwOut
  rw [hro]

/-- **C7** (amended: transactions with at least one input, and the
`struct.pack` range bounds `WfTx`): parsing the serialization — stripped,
witness-carrying, or dispatched — returns exactly the `(value,
scriptPubKey)` pairs of the transaction's outputs, in order.  (For a
zero-input transaction the parser misreads `vi(n_out)` as a SegWit
marker, hence the restriction.) -/
theorem c7_parse_roundtrip (tx : Transaction) (h : tx.inputs ≠ [])
    (hwf : WfTx tx) :
    parse_transaction_outputs tx.serialize_without_witness =
      tx.outputs.map (fun o => (o.value, o.script_pubkey)) ∧
    parse_transaction_outputs tx.serialize_with_witness =
      tx.outputs.map (fun o => (o.value, o.script_pubkey)) ∧
    parse_transaction_outputs tx.serialize =
      tx.outputs.map (fun o => (o.value, o.script_pubkey)) := by
  have hstr := parse_outputs_stripped tx h hwf
  have hwit : parse_transaction_outputs tx.serialize_with_witness =
      tx.outputs.map (fun o => (o.value, o.script_pubkey)) := by
    cases hb : tx.has_witness_data
    · rw [Transaction.serialize_with_witness, if_pos (by simp [hb])]
      exact hstr
    · exact parse_outputs_marker tx hb hwf
  refine ⟨hstr, hwit, ?_⟩
  cases hb : tx.has_witness_data
  · rw [Transaction.serialize, if_neg (by simp [hb])]
    exact hstr
  · rw [Transaction.serialize, if_pos (by simp [hb])]
    exact hwit

/-- Witness for C7: a one-input transaction carrying witness data and two
outputs. -/
theorem c7_parse_roundtrip_witness :
    parse_transaction_outputs
        (⟨1, [⟨List.replicate 32 0xaa, 1, [0x51], 0xffffffff⟩],
          [⟨700, [0x51, 0x20]⟩, ⟨0, []⟩], [[[0x01, 0x02]]], 0⟩ :
          Transaction).serialize =
      ((⟨1, [⟨List.replicate 32 0xaa, 1, [0x51], 0xffffffff⟩],
          [⟨700, [0x51, 0x20]⟩, ⟨0, []⟩], [[[0x01, 0x02]]], 0⟩ :
          Transaction).outputs.map fun o => (o.value, o.script_pubkey)) :=
  (c7_parse_roundtrip _ (by decide) (by unfold WfTx; decide)).2.2

/-- Counterexample to C7 as stated for every transaction value: on the
zero-input one-output transaction the parser takes the first output's
bytes for a SegWit marker and returns no outputs at all. -/
theorem c7_parse_roundtrip_counterexample :
    parse_transaction_outputs (⟨1, [], [⟨0, []⟩], [], 0⟩ : Transaction).serialize = [] ∧
    ((⟨1, [], [⟨0, []⟩], [], 0⟩ : Transaction).outputs.map
      fun o => (o.value, o.script_pubkey)) = [(0, [])] := by
  decide


/-! ## Claim C5: P2SH multisig signing -/

theorem der_low_s_eq_some (r s : ℕ) (hr : r < 2 ^ 256) (hs : s < 2 ^ 256) :
    der_low_s r s = some (derLowSSpec r s) := by
  have hsl : sLow s < 2 ^ 256 := by
    have h1 : secpOrder < 2 ^ 256 := by norm_num [secpOrder]
    rw [sLow]
    split <;> omega
  have hr33 := derPad_length_le r hr
  have hs33 := derPad_length_le (sLow s) hsl
  rw [der_low_s, derLowSSpec, if_pos (by omega)]

theorem secpOrder_lt : secpOrder < 2 ^ 256 := by
  norm_num [secpOrder]

theorem mkSig_eq (k : SKey) (z : List ℕ)
    (h1 : (k.rawSign z).1 < secpOrder) (h2 : (k.rawSign z).2 < secpOrder) :
    mkSig k z = .ok (skSigBytes k z) := by
  rw [mkSig, skSigBytes,
    der_low_s_eq_some _ _ (h1.trans secpOrder_lt) (h2.trans secpOrder_lt)]
  rfl

theorem skSigBytes_length_le (k : SKey) (z : List ℕ)
    (h1 : (k.rawSign z).1 < secpOrder) (h2 : (k.rawSign z).2 < secpOrder) :
    (skSigBytes k z).length ≤ 75 := by
  rw [skSigBytes,
    der_low_s_eq_some _ _ (h1.trans secpOrder_lt) (h2.trans secpOrder_lt)]
  have hr33 := derPad_length_le (k.rawSign z).1 (h1.trans secpOrder_lt)
  have hsl : sLow (k.rawSign z).2 < 2 ^ 256 := by
    rw [sLow]
    have := secpOrder_lt
    split <;> omega
  have hs33 := derPad_length_le (sLow (k.rawSign z).2) hsl
  simp only [derLowSSpec, Option.getD_some, List.length_append, List.length_cons,
    List.length_nil]
  omega

theorem findKey_mem (keys : List SKey) (pk : List ℕ) (k : SKey)
    (h : findKey keys pk = some k) : k ∈ keys := by
  have := List.mem_of_find?_eq_some h
  exact List.mem_reverse.mp this

/-- The signing loop collects, in script order, the signatures for the
first `m - |acc|` matched pubkeys. -/
theorem sigLoop_eq (z : List ℕ) (keys : List SKey) (m : ℕ)
    (hk : ∀ k ∈ keys, (k.rawSign z).1 < secpOrder ∧ (k.rawSign z).2 < secpOrder) :
    ∀ (pks : List (List ℕ)) (acc : List (List ℕ)),
      sigLoop z keys m pks acc =
        .ok (acc ++ ((matchedPks keys pks).take (m - acc.length)).map
          (sigFromKey z keys)) := by
  intro pks
  induction pks with
  | nil =>
    intro acc
    simp [sigLoop, matchedPks]
  | cons pk rest ih =>
    intro acc
    rw [sigLoop]
    by_cases hm : m ≤ acc.length
    · rw [if_pos hm]
      have : m - acc.length = 0 := by omega
      simp [this]
    · rw [if_neg hm]
      cases hf : findKey keys pk with
      | some k =>
        obtain ⟨h1, h2⟩ := hk k (findKey_mem keys pk k hf)
        dsimp only
        rw [mkSig_eq k z h1 h2]
        dsimp only
        rw [ih (acc ++ [skSigBytes k z])]
        have hmatch : matchedPks keys (pk :: rest) = pk :: matchedPks keys rest := by
          simp [matchedPks, List.filter_cons, hf]
        have hsig : sigFromKey z keys pk = skSigBytes k z := by
          rw [sigFromKey, hf]
        have hcnt : m - acc.length = (m - (acc ++ [skSigBytes k z]).length) + 1 := by
          simp only [List.length_append, List.length_cons, List.length_nil]
          omega
        rw [hmatch, hcnt, List.take_succ_cons, List.map_cons, hsig]
        simp
      | none =>
        dsimp only
        rw [ih acc]
        have hmatch : matchedPks keys (pk :: rest) = matchedPks keys rest := by
          simp [matchedPks, List.filter_cons, hf]
        rw [hmatch]

theorem mapM_push_data (sigs : List (List ℕ)) (h : ∀ sg ∈ sigs, sg.length ≤ 75) :
    sigs.mapM push_data = .ok (sigs.map fun sg => sg.length :: sg) := by
  induction sigs with
  | nil => rfl
  | cons sg rest ih =>
    have h1 : sg.length ≤ 75 := h sg (List.mem_cons_self sg rest)
    have h2 := ih fun q hq => h q (List.mem_cons_of_mem _ hq)
    rw [List.mapM_cons, push_data, if_pos h1]
    simp only [h2]
    rfl

/-- **C5** (amended: the redeem script must also be pushable, i.e. at most
255 bytes — `push_data` has no `OP_PUSHDATA2`): against a parsed redeem
script, `sig_p2sh_multisig` raises `NotEnoughKeys` iff fewer than `m`
script pubkeys (compared in both compressed and uncompressed encodings)
match an available key; otherwise it returns `OP_0` followed by exactly
`m` pushed signatures in redeem-script pubkey order, followed by the
pushed redeem script. -/
theorem c5_multisig_signing (z : List ℕ) (keys : List SKey) (redeem : List ℕ)
    (m : ℕ) (pks : List (List ℕ))
    (hp : parse_multisig_redeem_script redeem = .ok pks)
    (hk : ∀ k ∈ keys, (k.rawSign z).1 < secpOrder ∧ (k.rawSign z).2 < secpOrder)
    (hred : redeem.length ≤ 255) :
    (sig_p2sh_multisig z keys redeem m = .error .notEnoughKeys ↔
      (matchedPks keys pks).length < m) ∧
    (m ≤ (matchedPks keys pks).length →
      ((matchedPks keys pks).take m).length = m ∧
      ∃ pr, push_data redeem = .ok pr ∧
        sig_p2sh_multisig z keys redeem m =
          .ok (0x00 :: (((((matchedPks keys pks).take m).map (sigFromKey z keys)).map
            (fun sg => sg.length :: sg)).flatten ++ pr))) := by
  have hloop := sigLoop_eq z keys m hk pks []
  simp only [List.nil_append, List.length_nil, Nat.sub_zero] at hloop
  have hsiglen : ((matchedPks keys pks).take m).length =
      min m (matchedPks keys pks).length := by
    simp
  have hsigsle : ∀ sg ∈ ((matchedPks keys pks).take m).map (sigFromKey z keys),
      sg.length ≤ 75 := by
    intro sg hsg
    obtain ⟨pk, hpk, rfl⟩ := List.mem_map.mp hsg
    rw [sigFromKey]
    cases hf : findKey keys pk with
    | some k =>
      obtain ⟨h1, h2⟩ := hk k (findKey_mem keys pk k hf)
      exact skSigBytes_length_le k z h1 h2
    | none => simp
  have hnorm : sig_p2sh_multisig z keys redeem m =
      if (((matchedPks keys pks).take m).map (sigFromKey z keys)).length < m then
        .error .notEnoughKeys
      else
        match push_data redeem with
        | .error e => .error e
        | .ok pr => .ok (0x00 ::
            (((((matchedPks keys pks).take m).map (sigFromKey z keys)).map
              (fun sg => sg.length :: sg)).flatten ++ pr)) := by
    rw [sig_p2sh_multisig, hp]
    dsimp only
    rw [hloop]
    dsimp only
    by_cases hc : (((matchedPks keys pks).take m).map (sigFromKey z keys)).length < m
    · rw [if_pos hc, if_pos hc]
    · rw [if_neg hc, if_neg hc, mapM_push_data _ hsigsle]
  obtain ⟨pr, hpr⟩ : ∃ pr, push_data redeem = .ok pr := by
    rw [push_data]
    by_cases h75 : redeem.length ≤ 75
    · exact ⟨_, by rw [if_pos h75]⟩
    · exact ⟨_, by rw [if_neg h75, if_pos hred]⟩
  rw [hpr] at hnorm
  constructor
  · constructor
    · intro herr
      by_contra hge
      push_neg at hge
      rw [hnorm, if_neg (by simp only [List.length_map, hsiglen]; omega)] at herr
      exact absurd herr (by simp)
    · intro hlt
      rw [hnorm, if_pos (by simp only [List.length_map, hsiglen]; omega)]
  · intro hge
    refine ⟨by simp only [hsiglen]; omega, pr, hpr, ?_⟩
    rw [hnorm, if_neg (by simp only [List.length_map, hsiglen]; omega)]

/-- Witness for C5: a 1-of-1 multisig whose single key is available. -/
theorem c5_multisig_signing_witness :
    (sig_p2sh_multisig [0xab] [c5Key] c5Redeem2 1 = .error .notEnoughKeys ↔
      (matchedPks [c5Key] [List.replicate 33 2]).length < 1) ∧
    (1 ≤ (matchedPks [c5Key] [List.replicate 33 2]).length →
      ((matchedPks [c5Key] [List.replicate 33 2]).take 1).length = 1 ∧
      ∃ pr, push_data c5Redeem2 = .ok pr ∧
        sig_p2sh_multisig [0xab] [c5Key] c5Redeem2 1 =
          .ok (0x00 :: (((((matchedPks [c5Key] [List.replicate 33 2]).take 1).map
            (sigFromKey [0xab] [c5Key])).map
            (fun sg => sg.length :: sg)).flatten ++ pr))) :=
  c5_multisig_signing [0xab] [c5Key] c5Redeem2 1 [List.replicate 33 2] rfl
    (by
      intro k hk
      simp only [List.mem_singleton] at hk
      subst hk
      exact ⟨by decide, by decide⟩)
    (by decide)

/-- Counterexample to C5 as stated: a well-formed 1-of-4 multisig over
uncompressed pubkeys has a 268-byte redeem script; with the one needed key
available the code raises `ValueError` (`Data troppo lunga per push`)
instead of returning the scriptSig. -/
theorem c5_multisig_signing_counterexample :
    parse_multisig_redeem_script c5Redeem =
      .ok [c5Pk 7, c5Pk 8, c5Pk 9, c5Pk 10] ∧
    1 ≤ (matchedPks [c5Key] [c5Pk 7, c5Pk 8, c5Pk 9, c5Pk 10]).length ∧
    sig_p2sh_multisig [0xab] [c5Key] c5Redeem 1 = .error .dataTooLong :=
  ⟨rfl, by decide, rfl⟩

/-! ### C4: coin selection -/

theorem sumAmounts_append (a b : List UTXO) :
    sumAmounts (a ++ b) = sumAmounts a + sumAmounts b := by
  induction a with
  | nil => simp [sumAmounts]
  | cons u rest ih =>
    simp only [List.cons_append, sumAmounts, List.foldr_cons] at ih ⊢
    omega

theorem insertDesc_length (u : UTXO) (l : List UTXO) :
    (insertDesc u l).length = l.length + 1 := by
  induction l with
  | nil => rfl
  | cons v rest ih =>
    simp only [insertDesc]
    split
    · simp [ih]
    · simp

theorem sortDesc_length (l : List UTXO) : (sortDesc l).length = l.length := by
  induction l with
  | nil => rfl
  | cons x xs ih => simp [sortDesc, insertDesc_length, ih]

theorem take_append_cons {α : Type} (sel : List α) (u : α) (rest : List α) :
    (sel ++ u :: rest).take (sel.length + 1) = sel ++ [u] := by
  rw [List.take_append]
  rfl

/-- Loop invariant for `selectLoop`: started at any prefix `sel` of the
sorted list `srt` with running total `tot`, an `ok` result is the shortest
prefix extending `sel` that covers target plus fee, and an `error` means no
prefix longer than `sel` covers it, with the fixed payload. -/
theorem selectLoop_spec (target : ℤ) (input_weight fee_rate : ℚ) (avail minFee : ℤ)
    (srt : List UTXO) :
    ∀ (rest sel : List UTXO) (tot : ℤ),
      srt = sel ++ rest → tot = sumAmounts sel →
      ((∀ sel2,
          selectLoop target input_weight fee_rate avail minFee rest sel tot = .ok sel2 →
          ∃ k, sel.length < k ∧ k ≤ srt.length ∧ sel2 = srt.take k ∧
            target + estimateFee input_weight fee_rate k ≤ sumAmounts (srt.take k) ∧
            ∀ j, sel.length < j → j < k →
              ¬ (target + estimateFee input_weight fee_rate j ≤ sumAmounts (srt.take j))) ∧
       (∀ e,
          selectLoop target input_weight fee_rate avail minFee rest sel tot = .error e →
          (∀ j, sel.length < j → j ≤ srt.length →
            ¬ (target + estimateFee input_weight fee_rate j ≤ sumAmounts (srt.take j))) ∧
          e = (avail, target + minFee))) := by
  intro rest
  induction rest with
  | nil =>
    intro sel tot hs ht
    constructor
    · intro sel2 h
      simp only [selectLoop] at h
      cases h
    · intro e h
      have hlen : srt.length = sel.length := by rw [hs]; simp
      constructor
      · intro j hj1 hj2
        omega
      · simp only [selectLoop, Except.error.injEq] at h
        exact h.symm
  | cons u rest' ih =>
    intro sel tot hs ht
    have hrun : selectLoop target input_weight fee_rate avail minFee (u :: rest') sel tot =
        if target + estimateFee input_weight fee_rate (sel ++ [u]).length ≤ tot + u.amount
        then Except.ok (sel ++ [u])
        else selectLoop target input_weight fee_rate avail minFee rest' (sel ++ [u])
          (tot + u.amount) := rfl
    have hlen1 : (sel ++ [u]).length = sel.length + 1 := by simp
    have htake : srt.take (sel.length + 1) = sel ++ [u] := by
      rw [hs, take_append_cons]
    have hsum1 : sumAmounts (sel ++ [u]) = tot + u.amount := by
      rw [sumAmounts_append, ht]
      simp [sumAmounts]
    by_cases hc : target + estimateFee input_weight fee_rate (sel ++ [u]).length ≤
        tot + u.amount
    · constructor
      · intro sel2 h
        rw [hrun, if_pos hc] at h
        injection h with h2
        subst h2
        refine ⟨sel.length + 1, Nat.lt_succ_self _, ?_, ?_, ?_, ?_⟩
        · rw [hs]
          simp only [List.length_append, List.length_cons]
          omega
        · rw [htake]
        · rw [htake, hsum1, ← hlen1]
          exact hc
        · intro j hj1 hj2 _
          omega
      · intro e h
        rw [hrun, if_pos hc] at h
        simp at h
    · have hnotP1 : ¬ (target + estimateFee input_weight fee_rate (sel.length + 1) ≤
          sumAmounts (srt.take (sel.length + 1))) := by
        rw [htake, hsum1, ← hlen1]
        exact hc
      have hs' : srt = (sel ++ [u]) ++ rest' := by rw [hs]; simp
      have ht' : tot + u.amount = sumAmounts (sel ++ [u]) := hsum1.symm
      obtain ⟨ihok, iherr⟩ := ih (sel ++ [u]) (tot + u.amount) hs' ht'
      constructor
      · intro sel2 h
        rw [hrun, if_neg hc] at h
        obtain ⟨k, hk1, hk2, hk3, hk4, hk5⟩ := ihok sel2 h
        rw [hlen1] at hk1
        refine ⟨k, by omega, hk2, hk3, hk4, ?_⟩
        intro j hj1 hj2
        by_cases hje : j = sel.length + 1
        · subst hje
          exact hnotP1
        · exact hk5 j (by rw [hlen1]; omega) hj2
      · intro e h
        rw [hrun, if_neg hc] at h
        obtain ⟨h1, h2⟩ := iherr e h
        refine ⟨?_, h2⟩
        intro j hj1 hj2
        by_cases hje : j = sel.length + 1
        · subst hje
          exact hnotP1
        · exact h1 j (by rw [hlen1]; omega) hj2

/-- **C4.** `select_utxos` sorts the UTXOs by amount descending and returns
the shortest *non-empty* prefix whose total covers
`target + ⌈(10 + n·input_weight + 2·34) · fee_rate⌉` (`n` the prefix
length); if no such prefix of length `1..len(utxos)` exists it fails with
`InsufficientFunds` reporting the total available and
`target + fee(len(utxos))`.  (The claim as stated — *shortest* prefix —
fails for the empty prefix: the loop adds a first UTXO before ever
checking the condition, see the counterexample with `target = 0` and
`fee_rate = 0`.) -/
theorem c4_select_utxos (utxos : List UTXO) (target : ℤ) (fee_rate input_weight : ℚ) :
    (∀ sel, select_utxos utxos target fee_rate input_weight = .ok sel →
      ∃ k, 1 ≤ k ∧ k ≤ utxos.length ∧ sel = (sortDesc utxos).take k ∧
        target + ⌈(10 + k * input_weight + 2 * 34) * fee_rate⌉ ≤
          sumAmounts ((sortDesc utxos).take k) ∧
        ∀ j, 1 ≤ j → j < k →
          ¬ (target + ⌈(10 + j * input_weight + 2 * 34) * fee_rate⌉ ≤
            sumAmounts ((sortDesc utxos).take j))) ∧
    (∀ e, select_utxos utxos target fee_rate input_weight = .error e →
      (∀ j, 1 ≤ j → j ≤ utxos.length →
        ¬ (target + ⌈(10 + j * input_weight + 2 * 34) * fee_rate⌉ ≤
          sumAmounts ((sortDesc utxos).take j))) ∧
      e = (sumAmounts utxos,
        target + ⌈(10 + utxos.length * input_weight + 2 * 34) * fee_rate⌉)) := by
  have h := selectLoop_spec target input_weight fee_rate (sumAmounts utxos)
    (estimateFee input_weight fee_rate utxos.length) (sortDesc utxos)
    (sortDesc utxos) [] 0 (by simp) rfl
  simp only [List.length_nil] at h
  have hu : select_utxos utxos target fee_rate input_weight =
      selectLoop target input_weight fee_rate (sumAmounts utxos)
        (estimateFee input_weight fee_rate utxos.length) (sortDesc utxos) [] 0 := rfl
  rw [hu]
  constructor
  · intro sel hsel
    obtain ⟨k, hk0, hk1, hk2, hk3, hk4⟩ := h.1 sel hsel
    refine ⟨k, hk0, ?_, hk2, ?_, ?_⟩
    · rw [← sortDesc_length utxos]
      exact hk1
    · rw [← estimateFee_eq]
      exact hk3
    · intro j hj1 hj2
      rw [← estimateFee_eq]
      exact hk4 j hj1 hj2
  · intro e he
    obtain ⟨h1, h2⟩ := h.2 e he
    constructor
    · intro j hj1 hj2
      rw [← estimateFee_eq]
      exact h1 j hj1 (by rw [sortDesc_length]; exact hj2)
    · rw [← estimateFee_eq]
      exact h2

/-- C4 witness: one UTXO of 1000 sat, target 100, fee rate 1, input weight
148 — the selector returns the whole list, and the theorem instantiates to
the shortest-covering-prefix property at that input. -/
theorem c4_select_utxos_witness :
    ∃ k, 1 ≤ k ∧ k ≤ [(⟨[], 0, 1000, 0⟩ : UTXO)].length ∧
      [(⟨[], 0, 1000, 0⟩ : UTXO)] = (sortDesc [(⟨[], 0, 1000, 0⟩ : UTXO)]).take k ∧
      (100 : ℤ) + ⌈(10 + k * (148 : ℚ) + 2 * 34) * (1 : ℚ)⌉ ≤
        sumAmounts ((sortDesc [(⟨[], 0, 1000, 0⟩ : UTXO)]).take k) ∧
      ∀ j, 1 ≤ j → j < k →
        ¬ ((100 : ℤ) + ⌈(10 + j * (148 : ℚ) + 2 * 34) * (1 : ℚ)⌉ ≤
          sumAmounts ((sortDesc [(⟨[], 0, 1000, 0⟩ : UTXO)]).take j)) :=
  (c4_select_utxos [⟨[], 0, 1000, 0⟩] 100 1 148).1 [⟨[], 0, 1000, 0⟩] rfl

/-- C4 counterexample to the literal claim: with `target = 0` and
`fee_rate = 0` the *empty* prefix already has total `≥ target + fee(0)`,
yet the code returns a one-element prefix — `select_utxos` never considers
the empty prefix, so its result is not the shortest satisfying prefix. -/
theorem c4_select_utxos_counterexample :
    select_utxos [⟨[], 0, 5, 0⟩] 0 0 148 = .ok [⟨[], 0, 5, 0⟩] ∧
    (0 : ℤ) + ⌈(10 + ((0 : ℕ) : ℚ) * (148 : ℚ) + 2 * 34) * (0 : ℚ)⌉ ≤
      sumAmounts ((sortDesc [(⟨[], 0, 5, 0⟩ : UTXO)]).take 0) ∧
    [(⟨[], 0, 5, 0⟩ : UTXO)] ≠ (sortDesc [(⟨[], 0, 5, 0⟩ : UTXO)]).take 0 := by
  refine ⟨rfl, ?_, by decide⟩
  rw [← estimateFee_eq]
  decide

/-! ### C3: the fee-loop iteration -/

theorem get_script_type_err (spk : List ℕ) (e : ScriptErr)
    (h : get_script_type_from_spk spk = .error e) : e = .unknownScript := by
  unfold get_script_type_from_spk at h
  split_ifs at h <;> cases h
  rfl

theorem signOne_err (sg : Signer) (tx : Transaction) (i a : ℕ) (spk : List ℕ)
    (e : ScriptErr) (h : signOne sg tx i a spk = .error e) : e = .unknownScript := by
  unfold signOne at h
  by_cases hw : is_witness_script spk
  · rw [if_pos hw] at h
    cases hg : get_script_type_from_spk spk with
    | ok k =>
      rw [hg] at h
      cases k <;> simp at h
    | error e2 =>
      rw [hg] at h
      dsimp only at h
      injection h with h2
      rw [← h2]
      exact get_script_type_err spk e2 hg
  · rw [if_neg hw] at h
    simp at h

theorem signOne_outputs (sg : Signer) (tx : Transaction) (i a : ℕ) (spk : List ℕ)
    (tx2 : Transaction) (h : signOne sg tx i a spk = .ok tx2) :
    tx2.outputs = tx.outputs := by
  unfold signOne at h
  by_cases hw : is_witness_script spk
  · rw [if_pos hw] at h
    cases hg : get_script_type_from_spk spk with
    | ok k =>
      rw [hg] at h
      cases k <;> (dsimp only at h; injection h with h2; subst h2; rfl)
    | error e2 =>
      rw [hg] at h
      dsimp only at h
      cases h
  · rw [if_neg hw] at h
    injection h with h2
    subst h2
    rfl

theorem signAllGo_err (sg : Signer) (info : List (ℕ × List ℕ)) :
    ∀ (tx : Transaction) (i : ℕ) (e : ScriptErr),
      signAllGo sg info tx i = .error e → e = .unknownScript := by
  induction info with
  | nil =>
    intro tx i e h
    simp [signAllGo] at h
  | cons p rest ih =>
    intro tx i e h
    simp only [signAllGo] at h
    cases hs : signOne sg tx i p.1 p.2 with
    | ok tx2 =>
      rw [hs] at h
      exact ih tx2 (i + 1) e h
    | error e2 =>
      rw [hs] at h
      dsimp only at h
      injection h with h2
      rw [← h2]
      exact signOne_err sg tx i p.1 p.2 e2 hs

theorem signAllGo_outputs (sg : Signer) (info : List (ℕ × List ℕ)) :
    ∀ (tx : Transaction) (i : ℕ) (tx2 : Transaction),
      signAllGo sg info tx i = .ok tx2 → tx2.outputs = tx.outputs := by
  induction info with
  | nil =>
    intro tx i tx2 h
    simp only [signAllGo, Except.ok.injEq] at h
    rw [← h]
  | cons p rest ih =>
    intro tx i tx2 h
    simp only [signAllGo] at h
    cases hs : signOne sg tx i p.1 p.2 with
    | ok tx3 =>
      rw [hs] at h
      exact (ih tx3 (i + 1) tx2 h).trans (signOne_outputs sg tx i p.1 p.2 tx3 hs)
    | error e2 =>
      rw [hs] at h
      dsimp only at h
      cases h

/-- **C3.** One iteration of `build_transaction`'s fee loop (the loop
starts at `fee = 200` and runs at most 10 iterations): with
`change = Σ inputs − Σ outputs − fee`, the iteration raises
`InsufficientFunds` iff `change < 0`; and a successfully signed iteration
reports exactly that change, includes a change output paying `changeSpk`
iff `change ≥ 546` (the dust limit), adds no output beyond the requested
ones and that optional change output, and re-estimates the fee as
`⌈vsize · fee_rate⌉`. -/
theorem c3_fee_loop_iteration (sg : Signer) (utxos : List UTXO)
    (outs : List (ℕ × List ℕ)) (changeSpk : List ℕ)
    (prevouts : List (ℕ × List ℕ)) (rate : ℚ) (fee : ℤ) :
    build_transaction sg utxos outs changeSpk prevouts rate =
      feeLoopGo sg utxos outs changeSpk prevouts rate 9 200 ∧
    (iterBody sg utxos outs changeSpk prevouts rate fee = .error .insufficientFunds ↔
      sumAmounts utxos - sumOutValues outs - fee < 0) ∧
    (∀ tx nf ch hc,
      iterBody sg utxos outs changeSpk prevouts rate fee = .ok (tx, nf, ch, hc) →
      ch = sumAmounts utxos - sumOutValues outs - fee ∧
      (hc = true ↔ 546 ≤ ch) ∧
      nf = ceilMulQ (tx.calculate_sizes.1 : ℤ) rate ∧
      tx.outputs = (outs.map fun p => ⟨p.1, p.2⟩) ++
        (if 546 ≤ ch then [⟨ch.toNat, changeSpk⟩] else [])) := by
  have hunf : iterBody sg utxos outs changeSpk prevouts rate fee =
      (if sumAmounts utxos - sumOutValues outs - fee < 0 then
        Except.error ScriptErr.insufficientFunds
      else
        match signAllGo sg ((utxos.zip prevouts).map Prod.snd)
            (mkSkeleton utxos outs changeSpk
              (sumAmounts utxos - sumOutValues outs - fee)
              (decide (546 ≤ sumAmounts utxos - sumOutValues outs - fee))) 0 with
        | .error e => .error e
        | .ok tx => .ok (tx, ceilMulQ (tx.calculate_sizes.1 : ℤ) rate,
            sumAmounts utxos - sumOutValues outs - fee,
            decide (546 ≤ sumAmounts utxos - sumOutValues outs - fee))) := rfl
  refine ⟨rfl, ?_, ?_⟩
  · by_cases hneg : sumAmounts utxos - sumOutValues outs - fee < 0
    · rw [hunf, if_pos hneg]
      exact iff_of_true rfl hneg
    · rw [hunf, if_neg hneg]
      cases hs : signAllGo sg ((utxos.zip prevouts).map Prod.snd)
          (mkSkeleton utxos outs changeSpk
            (sumAmounts utxos - sumOutValues outs - fee)
            (decide (546 ≤ sumAmounts utxos - sumOutValues outs - fee))) 0 with
      | error e =>
        dsimp only
        constructor
        · intro hh
          have he := signAllGo_err sg _ _ _ e hs
          rw [he] at hh
          simp at hh
        · intro hh
          exact absurd hh hneg
      | ok tx =>
        dsimp only
        exact iff_of_false (by simp) hneg
  · intro tx nf ch hc h
    rw [hunf] at h
    by_cases hneg : sumAmounts utxos - sumOutValues outs - fee < 0
    · rw [if_pos hneg] at h
      simp at h
    · rw [if_neg hneg] at h
      cases hs : signAllGo sg ((utxos.zip prevouts).map Prod.snd)
          (mkSkeleton utxos outs changeSpk
            (sumAmounts utxos - sumOutValues outs - fee)
            (decide (546 ≤ sumAmounts utxos - sumOutValues outs - fee))) 0 with
      | error e =>
        rw [hs] at h
        simp at h
      | ok tx2 =>
        rw [hs] at h
        dsimp only at h
        injection h with h2
        simp only [Prod.mk.injEq] at h2
        obtain ⟨ht, hnf, hch, hhc⟩ := h2
        refine ⟨hch.symm, ?_, ?_, ?_⟩
        · rw [← hhc, ← hch]
          simp
        · rw [← hnf, ht]
        · have ho := signAllGo_outputs sg _ _ _ _ hs
          rw [← ht, ho, ← hch]
          simp only [mkSkeleton]
          simp

/-- C3 witness: the fee-loop iteration on one 1000-sat input, a 300-sat
requested output and fee 100 yields change 600 ≥ 546, a change output of
600 sat, and next fee 72 = vsize of the signed transaction times rate 1. -/
theorem c3_fee_loop_iteration_witness :
    (600 : ℤ) = sumAmounts [⟨List.replicate 32 1, 0, 1000, 0⟩] -
        sumOutValues [(300, [0x51])] - 100 ∧
    (true = true ↔ (546 : ℤ) ≤ 600) ∧
    (72 : ℤ) = ceilMulQ ((c3tx.calculate_sizes.1 : ℕ) : ℤ) 1 ∧
    c3tx.outputs = ([((300 : ℕ), [(0x51 : ℕ)])].map fun p => ⟨p.1, p.2⟩) ++
      (if (546 : ℤ) ≤ 600 then [⟨(600 : ℤ).toNat, [0x6a]⟩] else []) :=
  (c3_fee_loop_iteration c3sg [⟨List.replicate 32 1, 0, 1000, 0⟩] [(300, [0x51])]
      [0x6a] [(1000, [0x76])] 1 100).2.2 c3tx 72 600 true rfl

/-! ### C2: the built transaction's balance and fee -/

theorem outsSum_append (l1 l2 : List TransactionOutput) :
    (l1 ++ l2).foldr (fun o a => (o.value : ℤ) + a) 0 =
      l1.foldr (fun o a => (o.value : ℤ) + a) 0 +
        l2.foldr (fun o a => (o.value : ℤ) + a) 0 := by
  induction l1 with
  | nil => simp
  | cons o rest ih =>
    simp only [List.cons_append, List.foldr_cons, ih]
    ring

theorem outsSum_map (outs : List (ℕ × List ℕ)) :
    ((outs.map fun p => (⟨p.1, p.2⟩ : TransactionOutput)).foldr
        (fun o a => (o.value : ℤ) + a) 0) = sumOutValues outs := by
  induction outs with
  | nil => rfl
  | cons p rest ih =>
    simp only [List.map_cons, List.foldr_cons, ih, sumOutValues]

/-- The characterization of a successful fee-loop iteration, shared by the
fee-loop theorems: the reported change, dust flag, next fee and output
list of the signed skeleton. -/
theorem iterBody_ok (sg : Signer) (utxos : List UTXO) (outs : List (ℕ × List ℕ))
    (changeSpk : List ℕ) (prevouts : List (ℕ × List ℕ)) (rate : ℚ) (f : ℤ)
    (tx : Transaction) (nf ch : ℤ) (hc : Bool)
    (h : iterBody sg utxos outs changeSpk prevouts rate f = .ok (tx, nf, ch, hc)) :
    ch = sumAmounts utxos - sumOutValues outs - f ∧ 0 ≤ ch ∧
    (hc = true ↔ 546 ≤ ch) ∧
    nf = ceilMulQ (tx.calculate_sizes.1 : ℤ) rate ∧
    tx.outputs = (outs.map fun p => ⟨p.1, p.2⟩) ++
      (if 546 ≤ ch then [⟨ch.toNat, changeSpk⟩] else []) := by
  have hunf : iterBody sg utxos outs changeSpk prevouts rate f =
      (if sumAmounts utxos - sumOutValues outs - f < 0 then
        Except.error ScriptErr.insufficientFunds
      else
        match signAllGo sg ((utxos.zip prevouts).map Prod.snd)
            (mkSkeleton utxos outs changeSpk
              (sumAmounts utxos - sumOutValues outs - f)
              (decide (546 ≤ sumAmounts utxos - sumOutValues outs - f))) 0 with
        | .error e => .error e
        | .ok tx => .ok (tx, ceilMulQ (tx.calculate_sizes.1 : ℤ) rate,
            sumAmounts utxos - sumOutValues outs - f,
            decide (546 ≤ sumAmounts utxos - sumOutValues outs - f))) := rfl
  rw [hunf] at h
  by_cases hneg : sumAmounts utxos - sumOutValues outs - f < 0
  · rw [if_pos hneg] at h
    simp at h
  · rw [if_neg hneg] at h
    cases hs : signAllGo sg ((utxos.zip prevouts).map Prod.snd)
        (mkSkeleton utxos outs changeSpk
          (sumAmounts utxos - sumOutValues outs - f)
          (decide (546 ≤ sumAmounts utxos - sumOutValues outs - f))) 0 with
    | error e =>
      rw [hs] at h
      simp at h
    | ok tx2 =>
      rw [hs] at h
      dsimp only at h
      injection h with h2
      simp only [Prod.mk.injEq] at h2
      obtain ⟨ht, hnf2, hch, hhc⟩ := h2
      refine ⟨hch.symm, ?_, ?_, ?_, ?_⟩
      · rw [← hch]
        omega
      · rw [← hhc, ← hch]
        simp
      · rw [← hnf2, ht]
      · have ho := signAllGo_outputs sg _ _ _ _ hs
        rw [← ht, ho, ← hch]
        simp only [mkSkeleton]
        simp

/-- Every `ok` result of the fee loop is produced by a final successful
iteration whose next-fee estimate is the reported fee. -/
theorem feeLoopGo_spec (sg : Signer) (utxos : List UTXO) (outs : List (ℕ × List ℕ))
    (changeSpk : List ℕ) (prevouts : List (ℕ × List ℕ)) (rate : ℚ) :
    ∀ (r : ℕ) (fee0 : ℤ) (tx : Transaction) (fee ch : ℤ),
      feeLoopGo sg utxos outs changeSpk prevouts rate r fee0 = .ok (tx, fee, ch) →
      ∃ f ch0 hc,
        iterBody sg utxos outs changeSpk prevouts rate f = .ok (tx, fee, ch0, hc) ∧
        ch = (if hc then ch0 else 0) := by
  intro r
  induction r with
  | zero =>
    intro fee0 tx fee ch h
    simp only [feeLoopGo] at h
    cases hi : iterBody sg utxos outs changeSpk prevouts rate fee0 with
    | error e =>
      rw [hi] at h
      simp at h
    | ok q =>
      obtain ⟨tx1, nf1, ch1, hc1⟩ := q
      rw [hi] at h
      dsimp only at h
      injection h with h2
      simp only [Prod.mk.injEq] at h2
      obtain ⟨ht, hnf, hch⟩ := h2
      exact ⟨fee0, ch1, hc1, by rw [hi, ht, hnf], hch.symm⟩
  | succ r ih =>
    intro fee0 tx fee ch h
    simp only [feeLoopGo] at h
    cases hi : iterBody sg utxos outs changeSpk prevouts rate fee0 with
    | error e =>
      rw [hi] at h
      simp at h
    | ok q =>
      obtain ⟨tx1, nf1, ch1, hc1⟩ := q
      rw [hi] at h
      dsimp only at h
      by_cases he : nf1 = fee0
      · rw [if_pos he] at h
        injection h with h2
        simp only [Prod.mk.injEq] at h2
        obtain ⟨ht, hnf, hch⟩ := h2
        exact ⟨fee0, ch1, hc1, by rw [hi, ht, he, hnf], hch.symm⟩
      · rw [if_neg he] at h
        exact ih nf1 tx fee ch h

/-- **C2.** (corrected) For every `(tx, fee, change)` returned by
`build_transaction`: the reported fee is exactly `⌈vsize(tx) · fee_rate⌉`
(re-estimated on the final build); the reported change is either 0 or at
least the 546-sat dust limit, and `tx` carries a change output iff the
latter; and the input total equals `tx`'s output total plus the fee `f`
used in the final iteration plus a sub-dust remainder `d < 546` that is
silently dropped (so `Σ inputs = Σ outputs + fee` can fail, see the
counterexample). -/
theorem c2_build_balance (sg : Signer) (utxos : List UTXO)
    (outs : List (ℕ × List ℕ)) (changeSpk : List ℕ)
    (prevouts : List (ℕ × List ℕ)) (rate : ℚ)
    (tx : Transaction) (fee ch : ℤ)
    (h : build_transaction sg utxos outs changeSpk prevouts rate = .ok (tx, fee, ch)) :
    fee = ceilMulQ (tx.calculate_sizes.1 : ℤ) rate ∧
    (546 ≤ ch ∨ ch = 0) ∧
    tx.outputs = (outs.map fun p => ⟨p.1, p.2⟩) ++
      (if 546 ≤ ch then [⟨ch.toNat, changeSpk⟩] else []) ∧
    ∃ f d hc2, 0 ≤ d ∧ d < 546 ∧ (546 ≤ ch → d = 0) ∧
      iterBody sg utxos outs changeSpk prevouts rate f = .ok (tx, fee, ch + d, hc2) ∧
      sumAmounts utxos = outputsSum tx + f + d := by
  obtain ⟨f, ch0, hc, hib, hchv⟩ :=
    feeLoopGo_spec sg utxos outs changeSpk prevouts rate 9 200 tx fee ch h
  obtain ⟨hch0, hpos, hhc, hnf, hout⟩ :=
    iterBody_ok sg utxos outs changeSpk prevouts rate f tx fee ch0 hc hib
  cases hc with
  | true =>
    rw [if_pos rfl] at hchv
    subst hchv
    have h546 : 546 ≤ ch := hhc.mp rfl
    refine ⟨hnf, Or.inl h546, hout, f, 0, true, le_refl 0, by omega, fun _ => rfl, ?_, ?_⟩
    · rw [add_zero]
      exact hib
    · have hsum : outputsSum tx = sumOutValues outs + ch := by
        unfold outputsSum
        rw [hout, outsSum_append, outsSum_map, if_pos h546]
        simp [Int.toNat_of_nonneg hpos]
      omega
  | false =>
    rw [if_neg (by simp)] at hchv
    subst hchv
    have h546 : ¬ 546 ≤ ch0 := fun hx => absurd (hhc.mpr hx) (by simp)
    refine ⟨hnf, Or.inr rfl, ?_, f, ch0, false, hpos, by omega, by omega, ?_, ?_⟩
    · rw [hout, if_neg h546, if_neg (by omega)]
    · rw [zero_add]
      exact hib
    · have hsum : outputsSum tx = sumOutValues outs := by
        unfold outputsSum
        rw [hout, outsSum_append, outsSum_map, if_neg h546]
        simp
      omega

/-- C2 witness: on the concrete example (1000-sat input, 700-sat output,
fee rate 0) `build_transaction` converges to fee 0 with no change output,
and the theorem instantiates: the 300-sat remainder is the dropped
sub-dust change. -/
theorem c2_build_balance_witness :
    (0 : ℤ) = ceilMulQ ((c2tx.calculate_sizes.1 : ℕ) : ℤ) 0 ∧
    ((546 : ℤ) ≤ 0 ∨ (0 : ℤ) = 0) ∧
    c2tx.outputs = ([((700 : ℕ), [(0x51 : ℕ)])].map fun p => ⟨p.1, p.2⟩) ++
      (if (546 : ℤ) ≤ 0 then [⟨(0 : ℤ).toNat, [0x6a]⟩] else []) ∧
    ∃ f d hc2, 0 ≤ d ∧ d < 546 ∧ ((546 : ℤ) ≤ 0 → d = 0) ∧
      iterBody c3sg [⟨List.replicate 32 1, 0, 1000, 0⟩] [(700, [0x51])] [0x6a]
        [(1000, [0x76])] 0 f = .ok (c2tx, 0, 0 + d, hc2) ∧
      sumAmounts [⟨List.replicate 32 1, 0, 1000, 0⟩] = outputsSum c2tx + f + d :=
  c2_build_balance c3sg [⟨List.replicate 32 1, 0, 1000, 0⟩] [(700, [0x51])] [0x6a]
    [(1000, [0x76])] 0 c2tx 0 0 rfl

/-- C2 counterexample to the literal claim: on the same example the
reported fee is 0, yet `Σ inputs = 1000 ≠ 700 + 0 = Σ outputs + fee` —
the 300-sat sub-dust change simply disappears from the accounting. -/
theorem c2_build_balance_counterexample :
    build_transaction c3sg [⟨List.replicate 32 1, 0, 1000, 0⟩] [(700, [0x51])] [0x6a]
      [(1000, [0x76])] 0 = .ok (c2tx, 0, 0) ∧
    sumAmounts [⟨List.replicate 32 1, 0, 1000, 0⟩] ≠ outputsSum c2tx + 0 :=
  ⟨rfl, by decide⟩

/-! ### C1: the BIP-341 taproot sighash message -/

/-- **C1.** (code bug) The digest signed by `sign_input_taproot` is
`tagged_hash("TapSighash", message)`, and for `sighash_type = 0` the
message built by the code equals the claimed BIP-341 message only with
`sha_amounts` and `sha_scriptpubkeys` computed from the *current* input's
amount and scriptPubKey repeated `len(tx.inputs)` times.  On a two-input
transaction whose prevout amounts differ (5 and 7 sats) the code's message
is not the BIP-341 message hashing all inputs' amounts and scriptPubKeys,
so the produced signature commits to the wrong digest. -/
theorem c1_taproot_sighash :
    (∀ (tx : Transaction) (input_idx amount : ℕ) (prev_spk : List ℕ) (st : ℕ),
      taprootSighash tx input_idx amount prev_spk st =
        tagged_hash tapSighashTag (taprootSighashMessage tx input_idx amount prev_spk st)) ∧
    (∀ (tx : Transaction) (input_idx amount : ℕ) (prev_spk : List ℕ),
      taprootSighashMessage tx input_idx amount prev_spk 0 =
        bip341ClaimMessage tx (List.replicate tx.inputs.length amount)
          (List.replicate tx.inputs.length prev_spk) input_idx 0) ∧
    taprootSighashMessage c1tx 0 5 c1spk 0 ≠
      bip341ClaimMessage c1tx [5, 7] [c1spk, c1spk] 0 0 := by
  refine ⟨fun _ _ _ _ _ => rfl, ?_, ?_⟩
  · intro tx idx amount spk
    simp only [taprootSighashMessage, bip341ClaimMessage]
    norm_num
  · decide

end BTCOpenLab
